import Mathlib

/-!
Verification of the d2p process-orchestration engine against its
natural-language specification.

Each Python function named in the claims is shallowly embedded as an
executable Lean definition that mirrors the source line by line:

* `CgroupManager._sanitize_name` and `CgroupManager.parse_memory_string`
  (src/d2p/ISOLATION/cgroup_manager.py),
* `HealthMonitor` cycle logic (src/d2p/MANAGERS/health_monitor.py),
* `NamespaceManager._detect_available_namespaces` / `unshare`
  (src/d2p/ISOLATION/namespace_manager.py),
* `NetworkManager` port/IP allocation and service discovery
  (src/d2p/MANAGERS/network_manager.py),
* `DependencyResolver.resolve_order` (src/d2p/RUNNERS/dependency_resolver.py).

Python `dict`s are modelled as insertion-ordered association lists with
overwrite-in-place update (the semantics of CPython dicts), machine floats
of the source appear as exact rationals, and operating-system effects
(socket binds, syscalls, the filesystem) are parameters of the embedding.
-/

namespace D2P

/-! ## Python string primitives used by the embedded code -/

/-- The ASCII whitespace characters stripped by `str.strip()` (the source
only ever strips ASCII text). -/
def pyIsSpace (c : Char) : Bool :=
  decide (c ∈ ([' ', '\t', '\n', '\r', '\x0b', '\x0c'] : List Char))

/-- `str.strip()` on a character list: drop whitespace from both ends. -/
def pyStripChars (l : List Char) : List Char :=
  ((l.dropWhile pyIsSpace).reverse.dropWhile pyIsSpace).reverse

/-- `str.lower()` for ASCII characters (all strings reaching the embedded
code paths are ASCII). -/
def pyLowerChar (c : Char) : Char :=
  if 'A' ≤ c ∧ c ≤ 'Z' then Char.ofNat (c.toNat + 32) else c

/-- `str.upper()` for ASCII characters. -/
def pyUpperChar (c : Char) : Char :=
  if 'a' ≤ c ∧ c ≤ 'z' then Char.ofNat (c.toNat - 32) else c

/-- One step bound of `str.replace`: the fuel argument starts at the length
of the list, which bounds the number of recursion steps, keeping the
definition structurally recursive (the `0, l` case is unreachable when the
fuel is at least the list length). Replacement is the CPython semantics:
scan left to right, replacing non-overlapping occurrences. -/
def pyReplaceFuel (old new : List Char) : Nat → List Char → List Char
  | _, [] => []
  | 0, l => l
  | fuel + 1, c :: rest =>
    if old ≠ [] ∧ old.isPrefixOf (c :: rest) then
      new ++ pyReplaceFuel old new fuel (List.drop old.length (c :: rest))
    else
      c :: pyReplaceFuel old new fuel rest

/-- `str.replace(old, new)` on character lists. -/
def pyReplace (old new l : List Char) : List Char :=
  pyReplaceFuel old new l.length l

/-- Decimal value of a digit list, as accumulated by numeric parsing. -/
def digitsVal (l : List Char) : Nat :=
  l.foldl (fun a c => 10 * a + (c.toNat - 48)) 0

/-- Read an optional leading `+`/`-` sign; returns the sign as `1` or `-1`
and the remaining characters. -/
def readSign : List Char → Int × List Char
  | [] => (1, [])
  | c :: rest =>
    if c = '+' then (1, rest)
    else if c = '-' then (-1, rest)
    else (1, c :: rest)

/-- The ten decimal digit characters. -/
def decimalDigits : List Char :=
  (List.range 10).map (fun n => Char.ofNat (48 + n))

/-- `int(s)` of CPython restricted to an optionally signed run of decimal
digits (the general form also allows underscores between digits and
surrounding whitespace, none of which occur on the embedded code paths);
`none` models a raised `ValueError`. -/
def pyIntChars (l : List Char) : Option Int :=
  let (sign, rest) := readSign l
  if rest ≠ [] ∧ rest.all Char.isDigit then some (sign * digitsVal rest) else none

/-- Digit-group continuation of CPython numeric literals: consumes
`digit | '_' digit` runs (a single underscore is allowed only between two
digits), returning the digits read (underscores dropped) and the
unconsumed remainder. -/
def digitsU : List Char → List Char × List Char
  | [] => ([], [])
  | c :: rest =>
    if c.isDigit then
      (c :: (digitsU rest).1, (digitsU rest).2)
    else if c = '_' then
      match rest with
      | c2 :: rest2 =>
        if c2.isDigit then (c2 :: (digitsU rest2).1, (digitsU rest2).2)
        else ([], c :: rest)
      | [] => ([], [c])
    else ([], c :: rest)

/-- A CPython `digitpart`: one digit followed by optional
underscore-separated digit groups; `none` when the input does not start
with a digit. -/
def parseDigitPart : List Char → Option (List Char × List Char)
  | [] => none
  | c :: rest =>
    if c.isDigit then some (c :: (digitsU rest).1, (digitsU rest).2)
    else none

/-- Mantissa of a CPython float literal,
`digitpart [. [digitpart]] | . digitpart`: returns the combined digits'
value, the count of fractional digits, the count of all mantissa digits,
and the remainder. -/
def parseMantissa (l : List Char) : Option (Nat × Nat × Nat × List Char) :=
  match parseDigitPart l with
  | some (ids, r) =>
    match r with
    | '.' :: r2 =>
      match parseDigitPart r2 with
      | some (fds, r3) =>
        some (digitsVal (ids ++ fds), fds.length, ids.length + fds.length, r3)
      | none => some (digitsVal ids, 0, ids.length, r2)
    | _ => some (digitsVal ids, 0, ids.length, r)
  | none =>
    match l with
    | '.' :: r2 =>
      (parseDigitPart r2).map (fun p => (digitsVal p.1, p.1.length, p.1.length, p.2))
    | _ => none

/-- Optional exponent clause `e [sign] digitpart` of a float literal (the
input is already lower-cased): `some (exponent, rest)`, with exponent `0`
when the clause is absent; `none` when `e` is present but malformed. -/
def parseFloatExp : List Char → Option (Int × List Char)
  | [] => some (0, [])
  | c :: rest =>
    if c = 'e' then
      let (sg, r1) := readSign rest
      match parseDigitPart r1 with
      | some (ds, r2) => some (sg * digitsVal ds, r2)
      | none => none
    else some (0, c :: rest)

/-- Round `num / den` (`den > 0`) to the nearest integer, ties to even. -/
def roundNearestEven (num den : Nat) : Nat :=
  let q := num / den
  let r := num % den
  if 2 * r < den then q
  else if den < 2 * r then q + 1
  else if q % 2 = 0 then q else q + 1

/-- Floor of `log2` via explicit fuel (`fuel ≥ n` suffices, as the
argument at least halves each step), so that it reduces in the kernel. -/
def log2Fuel : Nat → Nat → Nat
  | 0, _ => 0
  | fuel + 1, n => if 2 ≤ n then log2Fuel fuel (n / 2) + 1 else 0

/-- Floor of `log2 n` (`0` at `0`); see `natLog2_spec`. -/
def natLog2 (n : Nat) : Nat := log2Fuel n n

/-- Whether `p / (q * 2^e) < 2^t`, for a possibly negative scale `e`. -/
def scaledLT (p q : Nat) (e : Int) (t : Nat) : Bool :=
  match e with
  | .ofNat k => decide (p < q * 2 ^ (k + t))
  | .negSucc k => decide (p * 2 ^ (k + 1) < q * 2 ^ t)

/-- The binary scale `e` with `2^52 ≤ p/(q·2^e) < 2^53` (for `p, q > 0`):
the first estimate `⌊log2 p⌋ - ⌊log2 q⌋ - 52` puts `p/(q·2^e0)` inside
`(2^51, 2^53)` and is corrected downward once when it fell below `2^52`. -/
def normScale (p q : Nat) : Int :=
  let e0 : Int := (natLog2 p : Int) - (natLog2 q : Int) - 52
  if scaledLT p q e0 52 then e0 - 1 else e0

/-- Nearest integer (ties to even) to `p / (q · 2^e)`. -/
def roundAt (p q : Nat) (e : Int) : Nat :=
  match e with
  | .ofNat k => roundNearestEven p (q * 2 ^ k)
  | .negSucc k => roundNearestEven (p * 2 ^ (k + 1)) q

/-- Whether `n · 2^e ≥ 2^t`. -/
def sigValGE (n : Nat) (e : Int) (t : Nat) : Bool :=
  match e with
  | .ofNat k => decide (2 ^ t ≤ n * 2 ^ k)
  | .negSucc k => decide (2 ^ t * 2 ^ (k + 1) ≤ n)

/-- An IEEE-754 binary64 value as observed by the embedded code: a finite
value `(-1)^neg · sig · 2^exp` (the representation is not kept
normalized — only the value is ever observed), an infinity, or a nan. -/
inductive PyFloat where
  | finite (neg : Bool) (sig : Nat) (exp : Int)
  | inf (neg : Bool)
  | nan

/-- Correctly round the positive rational `p / q` (`p, q > 0`) to binary64:
round at the normal scale (clamped to the subnormal scale `2^-1074`), ties
to even, with rounded results reaching `2^1024` becoming infinite. -/
def roundPos (neg : Bool) (p q : Nat) : PyFloat :=
  let e := max (normScale p q) (-1074)
  let n := roundAt p q e
  if sigValGE n e 1024 then .inf neg else .finite neg n e

/-- The decimal value `m · 10^E` (sign `neg`, `m < 10^len`) rounded to
binary64. The two guards only short-circuit astronomic exponents and are
value-correct: for `m ≠ 0`, `E ≥ 309` forces `m·10^E ≥ 10^309 > 2^1024`
(infinite), and `E + len ≤ -324` forces `m·10^E < 10^-324 < 2^-1075`,
which rounds to zero. -/
def roundDec (neg : Bool) (m : Nat) (E : Int) (len : Nat) : PyFloat :=
  if m = 0 then .finite neg 0 0
  else if 309 ≤ E then .inf neg
  else if E + (len : Int) ≤ -324 then .finite neg 0 0
  else if 0 ≤ E then roundPos neg (m * 10 ^ E.toNat) 1
  else roundPos neg m (10 ^ (-E).toNat)

/-- `float(s)` of CPython on ASCII text: strip whitespace, fold case,
accept `inf`/`infinity`/`nan` or a decimal literal
`[sign] (digits [. digits] | . digits) [e [sign] digits]` with single
underscores allowed between digits, and round the exact decimal value to
the nearest binary64 (ties to even, subnormals below `2^-1022`, overflow
to infinity at `2^1024`, as the conversion never raises `OverflowError`);
`none` models a raised `ValueError`. (CPython additionally accepts
non-ASCII Unicode decimal digits, which cannot reach this code.) -/
def pyFloatChars (l0 : List Char) : Option PyFloat :=
  let l1 := (pyStripChars l0).map pyLowerChar
  let (sg, l) := readSign l1
  let neg : Bool := decide (sg < 0)
  if l = ['i', 'n', 'f'] ∨ l = ['i', 'n', 'f', 'i', 'n', 'i', 't', 'y'] then some (.inf neg)
  else if l = ['n', 'a', 'n'] then some .nan
  else
    match parseMantissa l with
    | none => none
    | some (m, frac, len, r) =>
      match parseFloatExp r with
      | some (ex, []) => some (roundDec neg m (ex - (frac : Int)) len)
      | _ => none

/-- `int(s)` of CPython for a decimal string: strip whitespace, optional
sign, digits with single underscores between digits; `none` models a
raised `ValueError`. -/
def pyIntLit (l : List Char) : Option Int :=
  let (sign, rest) := readSign (pyStripChars l)
  match parseDigitPart rest with
  | some (ds, []) => some (sign * digitsVal ds)
  | _ => none

/-- The multiplication `value * multiplier` of `parse_memory_string`.
Every multiplier in the suffix table is a power of two
(`1, 2^10, 2^20, 2^30, 2^40`) and converts to binary64 exactly, so the
IEEE product is exact: `sig·mult·2^exp` is representable whenever it
stays below `2^1024`, and the rounded product is infinite exactly when it
reaches `2^1024`. Folding the multiplier into the (non-normalized)
significand therefore preserves the value. -/
def floatMulNat : PyFloat → Nat → PyFloat
  | .nan, _ => .nan
  | .inf neg, _ => .inf neg
  | .finite neg n e, mult =>
    if sigValGE (n * mult) e 1024 then .inf neg else .finite neg (n * mult) e

/-- Floor of `sig · 2^exp`, the integer magnitude of a finite binary64
value as taken by `int()` (truncation toward zero). -/
def truncMag (n : Nat) : Int → Nat
  | .ofNat k => n * 2 ^ k
  | .negSucc k => n / 2 ^ (k + 1)

/-- The pair `(n, e)` represents the natural number `v` exactly:
`n · 2^e = v`. -/
def exactNat (n : Nat) (e : Int) (v : Nat) : Prop :=
  match e with
  | .ofNat k => n * 2 ^ k = v
  | .negSucc k => n = v * 2 ^ (k + 1)

/-! ## CgroupManager (src/d2p/ISOLATION/cgroup_manager.py) -/

/-- `CgroupManager._sanitize_name`:
`name.replace('/', '_').replace('..', '_')`, then strip leading dots,
falling back to `"container"` when everything was stripped. -/
def sanitize_name (name : String) : String :=
  let s1 := pyReplace ['/'] ['_'] name.data
  let s2 := pyReplace ['.', '.'] ['_'] s1
  let s3 := s2.dropWhile (fun c => c = '.')
  if s3 = [] then "container" else String.mk s3

/-- The suffix table of `parse_memory_string`, already in the order produced
by `sorted(suffixes.items(), key=lambda x: -len(x[0]))` (a stable sort of
the dict's insertion order `b,k,kb,m,mb,g,gb,t,tb` by decreasing length). -/
def memorySuffixes : List (List Char × Nat) :=
  [(['k', 'b'], 1024), (['m', 'b'], 1024 ^ 2), (['g', 'b'], 1024 ^ 3), (['t', 'b'], 1024 ^ 4),
   (['b'], 1), (['k'], 1024), (['m'], 1024 ^ 2), (['g'], 1024 ^ 3), (['t'], 1024 ^ 4)]

/-- First table entry whose suffix ends the string; returns the prefix
(`memory_str[:-len(suffix)]`) and the multiplier. -/
def findMemSuffix (s : List Char) : List (List Char × Nat) → Option (List Char × Nat)
  | [] => none
  | (suf, mult) :: rest =>
    if suf.reverse.isPrefixOf s.reverse then some (s.take (s.length - suf.length), mult)
    else findMemSuffix s rest

/-- `CgroupManager.parse_memory_string`: parse `"512m"`-style sizes to a
byte count. `.ok none` models the `None` returned on malformed input
(every raised `ValueError`, including `int()` of a nan, is caught);
`.error ()` models the `OverflowError` raised by `int()` of an infinite
float, the one exception the function does not catch. -/
def parse_memory_string (memory_str : String) : Except Unit (Option Int) :=
  if memory_str = "" then .ok none
  else
    let s := (pyStripChars memory_str.data).map pyLowerChar
    match findMemSuffix s memorySuffixes with
    | some (pre, mult) =>
      match pyFloatChars pre with
      | some f =>
        match floatMulNat f mult with
        | .finite neg n e =>
          .ok (some (if neg then -(truncMag n e : Int) else (truncMag n e : Int)))
        | .inf _ => .error ()
        | .nan => .ok none
      | none => .ok none
    | none => .ok (pyIntLit s)

/-! ## Association lists with CPython dict semantics

Ordered association lists model Python dicts: lookup by key, update
overwrites in place (keeping the original position), fresh keys append. -/

/-- Dict lookup. -/
def lookupA {α : Type} : List (String × α) → String → Option α
  | [], _ => none
  | (k, v) :: rest, key => if key = k then some v else lookupA rest key

/-- Dict update/insert: `d[key] = v`. -/
def setA {α : Type} (m : List (String × α)) (key : String) (v : α) : List (String × α) :=
  if (lookupA m key).isSome then m.map (fun p => if p.1 = key then (key, v) else p)
  else m ++ [(key, v)]

/-- Dict lookup keyed by an integer (used for `host_port_to_service`). -/
def lookupN {α : Type} : List (Nat × α) → Nat → Option α
  | [], _ => none
  | (k, v) :: rest, key => if key = k then some v else lookupN rest key

/-- Dict update/insert keyed by an integer. -/
def setN {α : Type} (m : List (Nat × α)) (key : Nat) (v : α) : List (Nat × α) :=
  if (lookupN m key).isSome then m.map (fun p => if p.1 = key then (key, v) else p)
  else m ++ [(key, v)]

/-! ## HealthMonitor (src/d2p/MANAGERS/health_monitor.py)

The monitor loop body for one service is embedded as a pure step function.
Everything the loop reads from the outside world during one cycle —
whether the process is running, its exit code, whether `manager.stop()` /
`manager.start()` succeed, the health-check result, the wall-clock data —
is a `CycleObs` input. The observable actions the loop takes (restart
attempt, `on_failure` callback, `time.sleep`) are reported as
`CycleEvents`. Delays are exact rationals standing for the source's
floats. -/

/-- `HealthStatus` enum. -/
inductive HealthStatus where
  | starting
  | healthy
  | unhealthy
  | none
deriving DecidableEq, Repr

/-- `ServiceHealth` dataclass; `last_check`/`last_restart` carry the
ISO-format timestamp strings of the source. -/
structure ServiceHealth where
  status : HealthStatus := .none
  failing_streak : Nat := 0
  last_check : Option String := Option.none
  last_output : String := ""
  restart_count : Nat := 0
  last_restart : Option String := Option.none
deriving DecidableEq, Repr

/-- `RestartPolicy`; `condition` is one of
`no / always / on-failure / unless-stopped`. -/
structure RestartPolicy where
  condition : String := "no"
  max_retries : Nat := 0
  delay : ℚ := 0
deriving DecidableEq

/-- `HealthCheck` model (the `test` command vector is irrelevant to the
monitor-cycle claims but kept for fidelity). -/
structure HealthCheckCfg where
  test : List String
  interval : ℚ := 30
  timeout : ℚ := 30
  retries : Nat := 3
  start_period : ℚ := 0
deriving DecidableEq

/-- Per-service monitor state: the tracked `ServiceHealth` record plus the
service's entry in `_restart_delays` (`Option.none` = key absent). -/
structure MonState where
  health : ServiceHealth
  restart_delay : Option ℚ
deriving DecidableEq

/-- Monitor state of a service that was never observed: fresh
`ServiceHealth()`, no `_restart_delays` entry. -/
def monInit : MonState := ⟨{}, Option.none⟩

/-- What one monitor cycle reads from the environment. -/
structure CycleObs where
  is_running : Bool
  exit_code : Option Int
  restart_ok : Bool
  elapsed : ℚ
  check_success : Bool
  check_output : String
  timestamp : String
deriving DecidableEq

/-- What one monitor cycle does: whether a restart was attempted
(`manager.stop(); manager.start()` reached), whether the `on_failure`
callback fired (a registered callback is assumed, as in the orchestrator),
and the backoff delay passed to `time.sleep` (`Option.none` = no sleep). -/
structure CycleEvents where
  restarted : Bool
  callback_fired : Bool
  slept : Option ℚ
deriving DecidableEq

/-- No observable action. -/
def noEvents : CycleEvents := ⟨false, false, Option.none⟩

/-- `HealthMonitor._should_restart`. -/
def should_restart (policy : RestartPolicy) (exit_code : Option Int) : Bool :=
  if policy.condition = "no" then false
  else if policy.condition = "always" then true
  else if policy.condition = "on-failure" then
    match exit_code with
    | some c => c ≠ 0
    | Option.none => false
  else if policy.condition = "unless-stopped" then true
  else false

/-- `HealthMonitor._handle_restart`: give up past `max_retries`, otherwise
sleep the current backoff delay, attempt the restart, and on success bump
`restart_count`, record `last_restart` and double the stored delay (capped
at 300 s). -/
def handle_restart (policy : RestartPolicy) (obs : CycleObs) (st : MonState) :
    MonState × CycleEvents :=
  if 0 < policy.max_retries ∧ policy.max_retries ≤ st.health.restart_count then
    (st, noEvents)
  else
    let base : ℚ := if 0 < policy.delay then policy.delay else 1
    let current : ℚ := st.restart_delay.getD base
    let slept : Option ℚ := if 0 < current then some current else Option.none
    if obs.restart_ok then
      ({ health := { st.health with
           restart_count := st.health.restart_count + 1,
           last_restart := some obs.timestamp },
         restart_delay := some (min (current * 2) 300) },
       ⟨true, false, slept⟩)
    else
      (st, ⟨true, false, slept⟩)

/-- One iteration of `HealthMonitor._monitor_loop` for a single service. -/
def monitor_cycle (policy : RestartPolicy) (hc : Option HealthCheckCfg) (obs : CycleObs)
    (st : MonState) : MonState × CycleEvents :=
  if obs.is_running = false then
    if should_restart policy obs.exit_code then
      let (st', ev) := handle_restart policy obs st
      ({ st' with health := { st'.health with status := .unhealthy } }, ev)
    else
      ({ st with health := { st.health with status := .unhealthy } }, ⟨false, true, Option.none⟩)
  else
    match hc with
    | Option.none => ({ st with health := { st.health with status := .none } }, noEvents)
    | some hcc =>
      if obs.elapsed < hcc.start_period then
        ({ st with health := { st.health with status := .starting } }, noEvents)
      else if obs.check_success then
        ({ health := { st.health with
             status := .healthy, failing_streak := 0,
             last_check := some obs.timestamp, last_output := obs.check_output },
           restart_delay := some 0 }, noEvents)
      else
        let streak := st.health.failing_streak + 1
        let h' := { st.health with
          failing_streak := streak, last_check := some obs.timestamp,
          last_output := obs.check_output, status := HealthStatus.unhealthy }
        if hcc.retries ≤ streak then ({ st with health := h' }, ⟨false, true, Option.none⟩)
        else ({ st with health := h' }, noEvents)

/-- Iterate monitor cycles over a list of per-cycle observations. -/
def monitor_run (policy : RestartPolicy) (hc : Option HealthCheckCfg) :
    List CycleObs → MonState → MonState × List CycleEvents
  | [], st => (st, [])
  | o :: os, st =>
    let (st1, ev) := monitor_cycle policy hc o st
    let (stf, evs) := monitor_run policy hc os st1
    (stf, ev :: evs)

/-- A cycle observation of a dead process that exited with code 1 and whose
restart would succeed (used to instantiate the restart-policy claims). -/
def failObs : CycleObs :=
  { is_running := false, exit_code := some 1, restart_ok := true,
    elapsed := 0, check_success := false, check_output := "", timestamp := "T" }

/-- `HealthMonitor.get_health`: `self._health.get(service_name, ServiceHealth())`.
The health map is returned unchanged alongside the result to make explicit
that the lookup never inserts. -/
def get_health (health_map : List (String × ServiceHealth)) (service_name : String) :
    ServiceHealth × List (String × ServiceHealth) :=
  ((lookupA health_map service_name).getD {}, health_map)

/-! ## NamespaceManager (src/d2p/ISOLATION/namespace_manager.py) -/

/-- The seven Linux namespace kinds of the `NamespaceType` flag. -/
inductive NamespaceType where
  | mount
  | uts
  | ipc
  | user
  | pid
  | net
  | cgroup
deriving DecidableEq, Repr

/-- What `_detect_available_namespaces` reads from the host:
whether `os.geteuid() == 0`, and the state of
`/proc/sys/kernel/unprivileged_userns_clone` (`Option.none` = file absent;
`some Option.none` = present but unreadable (PermissionError);
`some (some s)` = contents `s`). -/
structure NsEnv where
  is_root : Bool
  userns_file : Option (Option String)

/-- The `user_ns_enabled` flag computed by `_detect_available_namespaces`:
the file exists, is readable, and reads `"1"` after stripping. -/
def user_ns_enabled (env : NsEnv) : Bool :=
  match env.userns_file with
  | some (some content) => pyStripChars content.data = ['1']
  | _ => false

/-- `NamespaceManager._detect_available_namespaces` (the insertion order of
the Python set is irrelevant; the result is read only through membership). -/
def detect_available_namespaces (env : NsEnv) : List NamespaceType :=
  (if user_ns_enabled env then [NamespaceType.user] else [])
    ++ (if env.is_root then
          [NamespaceType.mount, NamespaceType.uts, NamespaceType.ipc,
           NamespaceType.pid, NamespaceType.net, NamespaceType.cgroup]
        else if user_ns_enabled env then
          [NamespaceType.mount, NamespaceType.uts, NamespaceType.ipc, NamespaceType.pid]
        else [])

/-- Inputs of `NamespaceManager.unshare`: `is_available`
(`Linux ∧ libc loaded`), the detected available set, the requested set, and
the result the `unshare(2)` syscall would give if invoked. -/
structure UnshareCtx where
  is_available : Bool
  available : List NamespaceType
  requested : List NamespaceType
  syscall_ok : Bool

/-- All namespace kinds, in the flag-iteration order of the source. -/
def allNamespaceTypes : List NamespaceType :=
  [.mount, .uts, .ipc, .user, .pid, .net, .cgroup]

/-- The effective namespace set: requested ∩ available. -/
def effectiveNamespaces (ctx : UnshareCtx) : List NamespaceType :=
  allNamespaceTypes.filter (fun t => t ∈ ctx.requested ∧ t ∈ ctx.available)

/-- `NamespaceManager.unshare`: returns (result, syscall invoked?).
Unavailable → `(false, false)` with a warning; empty effective set →
success no-op `(true, false)`; otherwise the syscall result decides. -/
def unshare (ctx : UnshareCtx) : Bool × Bool :=
  if ctx.is_available = false then (false, false)
  else if effectiveNamespaces ctx = [] then (true, false)
  else (ctx.syscall_ok, true)

/-! ## NetworkManager (src/d2p/MANAGERS/network_manager.py)

The manager's mutable dict fields become an explicit `NMState`; socket
probes (`get_free_port` / `is_port_free`) are an oracle `PortOS`. -/

/-- `NetworkConfig` (`driver`, `internal` and `labels` are carried
unchanged by the source and never read on the embedded paths). -/
structure NetConfig where
  name : String
  subnet : Option String := Option.none
  gateway : Option String := Option.none
deriving DecidableEq, Repr

/-- `ServiceNetwork`. -/
structure ServiceNetwork where
  service_name : String
  networks : List String
  ip_address : Option String := Option.none
  aliases : List String := []
deriving DecidableEq, Repr

/-- The dict-valued fields of `NetworkManager`. -/
structure NMState where
  service_ports : List (String × List (Nat × Nat)) := []
  host_port_to_service : List (Nat × String) := []
  networks : List (String × NetConfig) := []
  service_networks : List (String × ServiceNetwork) := []
  dns_entries : List (String × String) := []
  allocated_ips : List (String × List String) := []
deriving DecidableEq, Repr

/-- The operating-system answers observed by one `allocate_ports` call:
the successive values returned by `get_free_port()` and the
`is_port_free` predicate. Soundness of the socket trick guarantees
`isFree (draw k) = true` at draw time, but nothing relates `draw` to the
manager's own bookkeeping. -/
structure PortOS where
  draw : Nat → Nat
  isFree : Nat → Bool

/-- `NetworkManager.create_network`: no-op when the name exists, else
record the config, start an empty allocation set, and reserve the gateway
in it when one is specified. -/
def create_network (st : NMState) (config : NetConfig) : NMState :=
  if (lookupA st.networks config.name).isSome then st
  else
    let alloc : List String :=
      match config.gateway with
      | some g => [g]
      | Option.none => []
    { st with
      networks := setA st.networks config.name config,
      allocated_ips := setA st.allocated_ips config.name alloc }

/-- `int(p) for p in base_ip.split('.')` plus the `parts[0..3]` reads:
every dot-separated field must parse as a Python int and at least four
fields must exist; extra fields are parsed but unused. -/
def parseBaseIp (s : List Char) : Option Int :=
  let parts := (s.splitOn '.').map pyIntChars
  if parts.all Option.isSome then
    match parts with
    | p0 :: p1 :: p2 :: p3 :: _ =>
      some (p0.getD 0 * 2 ^ 24 + p1.getD 0 * 2 ^ 16 + p2.getD 0 * 2 ^ 8 + p3.getD 0)
    | _ => Option.none
  else Option.none

/-- Render one byte of an IP integer: `(ip_int >> k) & 0xFF` (Python's
arithmetic shift on possibly negative ints is floor division). -/
def ipByte (ipInt : Int) (k : Nat) : Nat :=
  ((ipInt.fdiv (2 ^ k)).emod 256).toNat

/-- The f-string `"{b24}.{b16}.{b8}.{b0}"` of `_allocate_ip`. -/
def formatIp (ipInt : Int) : String :=
  toString (ipByte ipInt 24) ++ "." ++ toString (ipByte ipInt 16) ++ "."
    ++ toString (ipByte ipInt 8) ++ "." ++ toString (ipByte ipInt 0)

/-- The `for offset in range(2, num_ips + 2)` scan of `_allocate_ip`:
return the first formatted address not in the allocated set. -/
def scanIPs (alloc : List String) (base : Int) : Nat → Int → Option String
  | 0, _ => Option.none
  | n + 1, off =>
    let ip := formatIp (base + off)
    if ip ∈ alloc then scanIPs alloc base n (off + 1) else some ip

/-- `NetworkManager._allocate_ip`. Parse failures (`ValueError` /
`IndexError`), a missing subnet, and scan exhaustion all fall back to
`127.0.0.1`; a successful scan records the address as allocated. -/
def allocate_ip (st : NMState) (network_name : String) : Option String × NMState :=
  match lookupA st.networks network_name with
  | Option.none => (Option.none, st)
  | some config =>
    match config.subnet with
    | Option.none => (some "127.0.0.1", st)
    | some subnet =>
      match subnet.data.splitOn '/' with
      | [baseStr, prefixStr] =>
        (match parseBaseIp baseStr, pyIntChars prefixStr with
         | some baseInt, some prefixLen =>
           if 32 < prefixLen then (some "127.0.0.1", st)  -- 1 << negative raises ValueError
           else
             let hostBits : Nat := (32 - prefixLen).toNat
             let numIps : Int := 2 ^ hostBits - 2
             let count : Nat := numIps.toNat  -- size of range(2, num_ips + 2)
             let alloc := (lookupA st.allocated_ips network_name).getD []
             match scanIPs alloc baseInt count 2 with
             | some ip =>
               (some ip,
                { st with allocated_ips := setA st.allocated_ips network_name (alloc ++ [ip]) })
             | Option.none => (some "127.0.0.1", st)
         | _, _ => (some "127.0.0.1", st))
      | _ => (some "127.0.0.1", st)

/-- `NetworkManager.connect_service`. -/
def connect_service (st : NMState) (service_name network_name : String)
    (aliases : List String) : Option String × NMState :=
  let st0 :=
    if (lookupA st.networks network_name).isSome then st
    else create_network st ({ name := network_name } : NetConfig)
  match allocate_ip st0 network_name with
  | (Option.none, st1) => (Option.none, st1)
  | (some ip, st1) =>
    let st2 :=
      match lookupA st1.service_networks service_name with
      | Option.none =>
        let sn0 : ServiceNetwork :=
          { service_name := service_name, networks := [network_name],
            ip_address := some ip, aliases := aliases }
        { st1 with service_networks := setA st1.service_networks service_name sn0 }
      | some sn =>
        let ip' : Option String :=
          match sn.ip_address with
          | some s => if s = "" then some ip else some s
          | Option.none => some ip
        let sn1 := { sn with networks := sn.networks ++ [network_name], ip_address := ip' }
        { st1 with service_networks := setA st1.service_networks service_name sn1 }
    let dns' := aliases.foldl (fun d a => setA d a ip) (setA st2.dns_entries service_name ip)
    (some ip, { st2 with dns_entries := dns' })

/-- The fields of `ServiceDefinition` read by `allocate_ports`:
`ports` is the insertion-ordered `{container: Optional[host]}` dict. -/
structure ServiceDefLite where
  name : String
  ports : List (Nat × Option Nat) := []
  networks : List String := []

/-- The port loop of `allocate_ports`: `hps` is `host_port_to_service`,
`k` counts calls to `get_free_port()`. -/
def allocPortsLoop (os : PortOS) (name : String) :
    List (Nat × Option Nat) → Nat → List (Nat × Nat) → List (Nat × String) →
    Except String (List (Nat × Nat) × List (Nat × String))
  | [], _, maps, hps => .ok (maps, hps)
  | (container_port, host_port) :: rest, k, maps, hps =>
    match host_port with
    | Option.none =>
      let p := os.draw k
      allocPortsLoop os name rest (k + 1) (setN maps container_port p) (setN hps p name)
    | some hp =>
      if os.isFree hp then
        allocPortsLoop os name rest k (setN maps container_port hp) (setN hps hp name)
      else
        .error ("Port " ++ toString hp ++ " is already in use, cannot start service " ++ name)

/-- `NetworkManager.allocate_ports`: allocate each declared port, record
the mappings, then connect the service to its networks (default network if
none declared) with its own name as alias. -/
def allocate_ports (os : PortOS) (st : NMState) (svc : ServiceDefLite) :
    Except String (List (Nat × Nat) × NMState) :=
  match allocPortsLoop os svc.name svc.ports 0 [] st.host_port_to_service with
  | .error e => .error e
  | .ok (maps, hps) =>
    let st1 := { st with host_port_to_service := hps,
                         service_ports := setA st.service_ports svc.name maps }
    let nets := if svc.networks = [] then ["d2p_default"] else svc.networks
    let st2 := nets.foldl (fun s net => (connect_service s svc.name net [svc.name]).2) st1
    .ok (maps, st2)

/-- The state built by `NetworkManager.__init__`: the default network with
subnet `172.28.0.0/16` and gateway `172.28.0.1`. -/
def nmInit : NMState :=
  create_network {} { name := "d2p_default", subnet := some "172.28.0.0/16",
                      gateway := some "172.28.0.1" }

/-- The port mappings of a successful `allocate_ports` result. -/
def portsResult (r : Except String (List (Nat × Nat) × NMState)) : Option (List (Nat × Nat)) :=
  match r with
  | .ok (m, _) => some m
  | .error _ => Option.none

/-- The allocated-IP set of a network, as read by `_allocate_ip`. -/
def allocatedOf (st : NMState) (network_name : String) : List String :=
  (lookupA st.allocated_ips network_name).getD []

/-- `name.upper().replace('-', '_').replace('.', '_')` — the environment
variable prefix of `get_service_discovery_env`. -/
def envVarPrefix (name : String) : String :=
  String.mk ((name.data.map pyUpperChar).map (fun c => if c = '-' ∨ c = '.' then '_' else c))

/-- The `<NAME>_HOST` value of `get_service_discovery_env`: the service's
allocated (truthy) IP address, else `127.0.0.1`. -/
def discoveryHost (st : NMState) (name : String) : String :=
  match lookupA st.service_networks name with
  | some sn =>
    match sn.ip_address with
    | some ip => if ip = "" then "127.0.0.1" else ip
    | Option.none => "127.0.0.1"
  | Option.none => "127.0.0.1"

/-- The `<NAME>_PORT` value: the host port of the service's first mapped
container port (`list(self.service_ports[name].keys())[0]`), when the
service has a non-empty port mapping. -/
def discoveryPort (st : NMState) (name : String) : Option String :=
  match lookupA st.service_ports name with
  | some ((_, hp) :: _) => some (toString hp)
  | _ => Option.none

/-- The per-service body of the `get_service_discovery_env` loop. -/
def discoveryStep (st : NMState) (env : List (String × String)) (name : String) :
    List (String × String) :=
  let pfx := envVarPrefix name
  let env1 := setA env (pfx ++ "_HOST") (discoveryHost st name)
  match discoveryPort st name with
  | some v => setA env1 (pfx ++ "_PORT") v
  | Option.none => env1

/-- `NetworkManager.get_service_discovery_env`. -/
def get_service_discovery_env (st : NMState) (all_services : List String) :
    List (String × String) :=
  all_services.foldl (discoveryStep st) []

/-! ## DependencyResolver (src/d2p/RUNNERS/dependency_resolver.py)

A config is the `services` dict reduced to what `resolve_order` reads:
the insertion-ordered association of service names to their `depends_on`
lists. (`set(svc.depends_on)` deduplicates and iterates in unspecified
order; both are irrelevant here — revisits of a dependency are no-ops and
every property proved is order-independent — so the list order stands in
for the set's.) The recursion of `visit` is bounded by a fuel of
`|services| + 1`, proved sufficient below; `.outOfFuel` is an artifact of
the embedding shown unreachable, while `.cycleAt name` models
`Exception(f"Circular dependency detected involving {name}")`. -/

abbrev Config := List (String × List String)

/-- The service names, in dict order. -/
def keysOf (cfg : Config) : List String := cfg.map Prod.fst

/-- `dependencies.get(name, [])`. -/
def depsOf (cfg : Config) (name : String) : List String := (lookupA cfg name).getD []

/-- The DFS state: `ordered` (append-only output), `visited`, and the
`processing` stack (head = innermost frame). -/
structure VisitSt where
  ordered : List String
  visited : List String
  processing : List String
deriving DecidableEq, Repr

/-- How `resolve_order` can fail. -/
inductive VisitErr where
  | cycleAt (name : String)
  | outOfFuel
deriving DecidableEq, Repr

/-- The `for dep in dependencies.get(name, [])` loop: visit each dep that
is a config service, aborting on the first error. -/
def visitFold (cfg : Config) (v : String → VisitSt → Except VisitErr VisitSt) :
    List String → VisitSt → Except VisitErr VisitSt
  | [], st => .ok st
  | d :: ds, st =>
    if d ∈ keysOf cfg then
      match v d st with
      | .error e => .error e
      | .ok st' => visitFold cfg v ds st'
    else visitFold cfg v ds st

/-- The recursive `visit` of `resolve_order`. -/
def visit (cfg : Config) : Nat → String → VisitSt → Except VisitErr VisitSt
  | 0, _, _ => .error .outOfFuel
  | fuel + 1, name, st =>
    if name ∈ st.processing then .error (.cycleAt name)
    else if name ∈ st.visited then .ok st
    else
      match visitFold cfg (visit cfg fuel) (depsOf cfg name)
          { st with processing := name :: st.processing } with
      | .error e => .error e
      | .ok st2 =>
        .ok { ordered := st2.ordered ++ [name], visited := name :: st2.visited,
              processing := st2.processing.erase name }

/-- The `for name in services: visit(name)` toplevel loop. -/
def runAll (cfg : Config) : List String → VisitSt → Except VisitErr VisitSt
  | [], st => .ok st
  | n :: ns, st =>
    match visit cfg (cfg.length + 1) n st with
    | .error e => .error e
    | .ok st' => runAll cfg ns st'

/-- `DependencyResolver.resolve_order`. -/
def resolve_order (cfg : Config) : Except VisitErr (List String) :=
  match runAll cfg (keysOf cfg) ⟨[], [], []⟩ with
  | .error e => .error e
  | .ok st => .ok st.ordered

/-- The same config with dangling `depends_on` entries (names not in
`config.services`) removed. -/
def restrictConfig (cfg : Config) : Config :=
  cfg.map (fun p => (p.1, p.2.filter (fun d => decide (d ∈ keysOf cfg))))

/-- `a` directly depends on `b`, within the config: both are services and
`b` is listed in `a`'s `depends_on`. -/
def DepEdge (cfg : Config) (a b : String) : Prop :=
  a ∈ keysOf cfg ∧ b ∈ keysOf cfg ∧ b ∈ depsOf cfg a

/-- `a` transitively (within-config) depends on `b`. -/
inductive DepPath (cfg : Config) : String → String → Prop
  | single {a b : String} : DepEdge cfg a b → DepPath cfg a b
  | cons {a b c : String} : DepEdge cfg a b → DepPath cfg b c → DepPath cfg a c

/-- `b` occurs strictly before `a` in the list `l`. -/
def beforeIn (l : List String) (b a : String) : Prop :=
  b ∈ l ∧ a ∈ l ∧ l.indexOf b < l.indexOf a

/-- The `processing` stack is a dependency chain: each deeper frame
directly depends on the frame above it (the head is the innermost frame). -/
inductive ChainStack (cfg : Config) : List String → Prop
  | nil : ChainStack cfg []
  | single (a : String) : ChainStack cfg [a]
  | cons (a b : String) (rest : List String) :
      DepEdge cfg b a → ChainStack cfg (b :: rest) → ChainStack cfg (a :: b :: rest)

/-- Number of config services not currently on the `processing` stack: the
termination measure showing the fuel `|services| + 1` suffices. -/
def measST (cfg : Config) (st : VisitSt) : Nat :=
  ((keysOf cfg).filter (fun k => decide (k ∉ st.processing))).length

/-- The DFS state invariant: `visited` mirrors `ordered` (reversed),
`ordered` has no duplicates, and every visited service has all its
within-config dependencies visited and placed before it. -/
def OrderedInv (cfg : Config) (st : VisitSt) : Prop :=
  st.visited = st.ordered.reverse ∧ st.ordered.Nodup ∧
  ∀ a ∈ st.visited, ∀ b, DepEdge cfg a b → b ∈ st.visited ∧ beforeIn st.ordered b a

/-! ## Theorems -/

/-! ### Generic facts about the replace/strip/lower primitives -/

theorem mem_pyReplaceFuel {old new : List Char} :
    ∀ (fuel : Nat) (l : List Char) (x : Char),
      x ∈ pyReplaceFuel old new fuel l → x ∈ l ∨ x ∈ new := by
  intro fuel
  induction fuel with
  | zero => intro l x hx; cases l with
    | nil => simp [pyReplaceFuel] at hx
    | cons c rest => exact Or.inl hx
  | succ n ih =>
    intro l x hx
    cases l with
    | nil => simp [pyReplaceFuel] at hx
    | cons c rest =>
      rw [pyReplaceFuel] at hx
      split at hx
      · rcases List.mem_append.1 hx with hn | hr
        · exact Or.inr hn
        · rcases ih _ _ hr with hl | hn
          · exact Or.inl (List.mem_of_mem_drop hl)
          · exact Or.inr hn
      · rcases List.mem_cons.1 hx with rfl | hr
        · exact Or.inl (List.mem_cons_self _ _)
        · rcases ih _ _ hr with hl | hn
          · exact Or.inl (List.mem_cons_of_mem _ hl)
          · exact Or.inr hn

theorem mem_pyReplaceFuel_single {c0 : Char} {new : List Char} :
    ∀ (fuel : Nat) (l : List Char), l.length ≤ fuel →
      ∀ x, x ∈ pyReplaceFuel [c0] new fuel l → (x ∈ l ∧ x ≠ c0) ∨ x ∈ new := by
  intro fuel
  induction fuel with
  | zero =>
    intro l hl x hx
    have : l = [] := List.length_eq_zero.1 (Nat.le_zero.1 hl)
    subst this; simp [pyReplaceFuel] at hx
  | succ n ih =>
    intro l hl x hx
    cases l with
    | nil => simp [pyReplaceFuel] at hx
    | cons c rest =>
      rw [pyReplaceFuel] at hx
      have hlen : rest.length ≤ n := by simpa using hl
      split at hx
      · rename_i hcond
        have hc : c0 = c := by
          have h2 := hcond.2
          simp only [List.isPrefixOf_cons₂, Bool.and_eq_true, beq_iff_eq] at h2
          exact h2.1
        subst hc
        simp only [List.length_cons, List.drop_succ_cons, List.drop_zero] at hx
        rcases List.mem_append.1 hx with hn | hr
        · exact Or.inr hn
        · rcases ih rest hlen x hr with ⟨hm, hne⟩ | hn
          · exact Or.inl ⟨List.mem_cons_of_mem _ hm, hne⟩
          · exact Or.inr hn
      · rename_i hcond
        have hne : c ≠ c0 := by
          intro h; subst h
          exact hcond ⟨by simp, by rw [List.isPrefixOf_cons₂]; simp⟩
        rcases List.mem_cons.1 hx with rfl | hr
        · exact Or.inl ⟨List.mem_cons_self _ _, hne⟩
        · rcases ih rest hlen x hr with ⟨hm, hne'⟩ | hn
          · exact Or.inl ⟨List.mem_cons_of_mem _ hm, hne'⟩
          · exact Or.inr hn

theorem mem_of_mem_dropWhile {p : Char → Bool} :
    ∀ {l : List Char} {x : Char}, x ∈ l.dropWhile p → x ∈ l := by
  intro l
  induction l with
  | nil => intro x hx; simp at hx
  | cons c rest ih =>
    intro x hx
    rw [List.dropWhile_cons] at hx
    split at hx
    · exact List.mem_cons_of_mem _ (ih hx)
    · exact hx

theorem head_dropWhile_false {p : Char → Bool} :
    ∀ {l : List Char} {a : Char}, (l.dropWhile p).head? = some a → p a = false := by
  intro l
  induction l with
  | nil => intro a ha; simp at ha
  | cons c rest ih =>
    intro a ha
    rw [List.dropWhile_cons] at ha
    split at ha
    · exact ih ha
    · rename_i hc
      simp only [List.head?_cons, Option.some.injEq] at ha
      subst ha
      exact Bool.not_eq_true _ ▸ Bool.of_not_eq_true hc

/-- **C8**: for every input, the sanitized cgroup name contains no `/` and
does not begin with `.`; on the spec's examples it yields `foo_bar`,
`_test` and `hidden` respectively. -/
theorem sanitize_name_no_slash_no_leading_dot :
    (∀ name : String,
        '/' ∉ (sanitize_name name).data ∧ (sanitize_name name).data.head? ≠ some '.') ∧
    sanitize_name "foo/bar" = "foo_bar" ∧
    sanitize_name "..test" = "_test" ∧
    sanitize_name ".hidden" = "hidden" := by
  refine ⟨?_, by decide, by decide, by decide⟩
  intro name
  unfold sanitize_name pyReplace
  set s1 := pyReplaceFuel ['/'] ['_'] name.data.length name.data with hs1
  set s2 := pyReplaceFuel ['.', '.'] ['_'] s1.length s1 with hs2
  have h1 : '/' ∉ s1 := by
    intro h
    rcases mem_pyReplaceFuel_single name.data.length name.data le_rfl '/' h with ⟨_, hne⟩ | hn
    · exact hne rfl
    · simp at hn
  have h2 : '/' ∉ s2 := by
    intro h
    rcases mem_pyReplaceFuel s1.length s1 '/' h with hm | hn
    · exact h1 hm
    · simp at hn
  by_cases h3 : s2.dropWhile (fun c => c = '.') = []
  · rw [if_pos h3]
    constructor
    · decide
    · decide
  · rw [if_neg h3]
    refine ⟨?_, ?_⟩
    · intro hmem
      exact h2 (mem_of_mem_dropWhile hmem)
    · intro hh
      have := head_dropWhile_false (p := fun c => decide (c = '.')) hh
      simp at this

/-! ### C7: parse_memory_string -/

theorem dropWhile_eq_self_of_no {p : Char → Bool} {l : List Char}
    (h : ∀ c ∈ l, p c = false) : l.dropWhile p = l := by
  cases l with
  | nil => rfl
  | cons c rest =>
    rw [List.dropWhile_cons, h c (List.mem_cons_self _ _)]
    simp

theorem pyStripChars_eq_self {l : List Char} (h : ∀ c ∈ l, pyIsSpace c = false) :
    pyStripChars l = l := by
  unfold pyStripChars
  rw [dropWhile_eq_self_of_no h,
    dropWhile_eq_self_of_no (fun c hc => h c (List.mem_reverse.1 hc)), List.reverse_reverse]

theorem takeWhile_digits {l : List Char} (h : ∀ c ∈ l, c.isDigit = true) :
    l.takeWhile Char.isDigit = l ∧ l.dropWhile Char.isDigit = [] := by
  induction l with
  | nil => exact ⟨rfl, rfl⟩
  | cons c rest ih =>
    have hc := h c (List.mem_cons_self _ _)
    have ihr := ih (fun x hx => h x (List.mem_cons_of_mem _ hx))
    rw [List.takeWhile_cons, List.dropWhile_cons, hc]
    simpa using ihr

theorem isPrefixOf_self_append (l r : List Char) : List.isPrefixOf l (l ++ r) = true := by
  induction l with
  | nil => simp
  | cons c rest ih => rw [List.cons_append, List.isPrefixOf_cons₂]; simp [ih]

theorem isPrefixOf_cons_ne {a b : Char} (h : a ≠ b) (l r : List Char) :
    List.isPrefixOf (a :: l) (b :: r) = false := by
  rw [List.isPrefixOf_cons₂]
  simp [h]

theorem isPrefixOf_cons_same (a : Char) (l r : List Char) :
    List.isPrefixOf (a :: l) (a :: r) = List.isPrefixOf l r := by
  rw [List.isPrefixOf_cons₂]
  simp

theorem readSign_digits {d : List Char} (hd : d ≠ []) (h : ∀ c ∈ d, c ∈ decimalDigits) :
    readSign d = (1, d) := by
  cases d with
  | nil => exact absurd rfl hd
  | cons c rest =>
    have hc := h c (List.mem_cons_self _ _)
    have h1 : c ≠ '+' := (by decide : ∀ x ∈ decimalDigits, x ≠ '+') c hc
    have h2 : c ≠ '-' := (by decide : ∀ x ∈ decimalDigits, x ≠ '-') c hc
    rw [readSign, if_neg h1, if_neg h2]

theorem digitsU_digits {l : List Char} (h : ∀ c ∈ l, c.isDigit = true) :
    digitsU l = (l, []) := by
  induction l with
  | nil => rfl
  | cons c rest ih =>
    have hc := h c (List.mem_cons_self _ _)
    have ihr := ih (fun x hx => h x (List.mem_cons_of_mem _ hx))
    rw [digitsU.eq_def]
    simp [hc, ihr]

theorem parseDigitPart_digits {l : List Char} (hne : l ≠ [])
    (h : ∀ c ∈ l, c.isDigit = true) : parseDigitPart l = some (l, []) := by
  cases l with
  | nil => exact absurd rfl hne
  | cons c rest =>
    have hc := h c (List.mem_cons_self _ _)
    have hrest := digitsU_digits (fun x hx => h x (List.mem_cons_of_mem _ hx))
    simp [parseDigitPart, hc, hrest]

theorem parseMantissa_digits {l : List Char} (hne : l ≠ [])
    (h : ∀ c ∈ l, c.isDigit = true) :
    parseMantissa l = some (digitsVal l, 0, l.length, []) := by
  unfold parseMantissa
  rw [parseDigitPart_digits hne h]

theorem roundNearestEven_den_one (n : Nat) : roundNearestEven n 1 = n := by
  simp [roundNearestEven, Nat.div_one, Nat.mod_one]

theorem log2Fuel_le : ∀ (fuel n k : Nat), n ≤ fuel → n < 2 ^ (k + 1) →
    log2Fuel fuel n ≤ k := by
  intro fuel
  induction fuel with
  | zero => intro n k h1 _; simp [log2Fuel]
  | succ f ih =>
    intro n k hle hlt
    rw [log2Fuel]
    split
    · rename_i h2
      have hk : 1 ≤ k := by
        rcases Nat.eq_zero_or_pos k with hk0 | hk0
        · subst hk0; norm_num at hlt; omega
        · exact hk0
      have hn2 : n / 2 ≤ f := by omega
      have hlt2 : n / 2 < 2 ^ ((k - 1) + 1) := by
        have hkk : k - 1 + 1 = k := by omega
        rw [hkk]
        rw [pow_succ] at hlt
        exact (Nat.div_lt_iff_lt_mul (by omega)).2 hlt
      have := ih (n / 2) (k - 1) hn2 hlt2
      omega
    · omega

theorem natLog2_le {n k : Nat} (h : n < 2 ^ (k + 1)) : natLog2 n ≤ k :=
  log2Fuel_le n n k le_rfl h

theorem log2Fuel_spec : ∀ (fuel n : Nat), n ≤ fuel → 1 ≤ n →
    2 ^ log2Fuel fuel n ≤ n ∧ n < 2 ^ (log2Fuel fuel n + 1) := by
  intro fuel
  induction fuel with
  | zero => intro n h1 h2; omega
  | succ f ih =>
    intro n hle h1
    rw [log2Fuel]
    split
    · rename_i h2
      have hn2 : n / 2 ≤ f := by omega
      have h12 : 1 ≤ n / 2 := by omega
      obtain ⟨hlo, hhi⟩ := ih (n / 2) hn2 h12
      have hplo : 2 ^ (log2Fuel f (n / 2) + 1) = 2 ^ log2Fuel f (n / 2) * 2 := pow_succ _ _
      have hphi : 2 ^ (log2Fuel f (n / 2) + 1 + 1) = 2 ^ (log2Fuel f (n / 2) + 1) * 2 :=
        pow_succ _ _
      constructor
      · omega
      · omega
    · rename_i h2
      have hn1 : n = 1 := by omega
      subst hn1
      norm_num

/-- The fuel-based floor-log2 is correct: `2^(natLog2 n) ≤ n < 2^(natLog2 n + 1)`. -/
theorem natLog2_spec {n : Nat} (h : 1 ≤ n) :
    2 ^ natLog2 n ≤ n ∧ n < 2 ^ (natLog2 n + 1) :=
  log2Fuel_spec n n le_rfl h

set_option exponentiation.threshold 2000 in
theorem roundPos_exact (neg : Bool) {p : Nat} (hp : 0 < p) (hlt : p < 2 ^ 53) :
    ∃ n e, roundPos neg p 1 = .finite neg n e ∧ exactNat n e p := by
  have hlog : natLog2 p ≤ 52 := natLog2_le hlt
  have hbig : (2 : Nat) ^ 53 < 2 ^ 1024 := Nat.pow_lt_pow_right (by norm_num) (by norm_num)
  have hEb : -53 ≤ normScale p 1 ∧ normScale p 1 ≤ 0 := by
    simp only [normScale]
    have h1 : natLog2 1 = 0 := rfl
    rw [h1]
    split <;> omega
  have hmax : max (normScale p 1) (-1074) = normScale p 1 := max_eq_left (by omega)
  simp only [roundPos, hmax]
  rcases hEcase : normScale p 1 with k | k
  · rw [hEcase] at hEb
    have hcast : (Int.ofNat k) = (k : Int) := rfl
    rw [hcast] at hEb
    have hk : k = 0 := by omega
    subst hk
    have hr : roundAt p 1 (Int.ofNat 0) = p := by
      show roundNearestEven p (1 * 2 ^ 0) = p
      norm_num [roundNearestEven_den_one]
    rw [hr]
    have hov : sigValGE p (Int.ofNat 0) 1024 = false := by
      simp only [sigValGE, decide_eq_false_iff_not, pow_zero, mul_one]
      omega
    rw [hov]
    refine ⟨p, Int.ofNat 0, by simp, ?_⟩
    show p * 2 ^ 0 = p
    norm_num
  · have hr : roundAt p 1 (Int.negSucc k) = p * 2 ^ (k + 1) := by
      show roundNearestEven (p * 2 ^ (k + 1)) 1 = p * 2 ^ (k + 1)
      exact roundNearestEven_den_one _
    rw [hr]
    have hov : sigValGE (p * 2 ^ (k + 1)) (Int.negSucc k) 1024 = false := by
      simp only [sigValGE, decide_eq_false_iff_not]
      intro hcon
      have : 2 ^ 1024 ≤ p :=
        Nat.le_of_mul_le_mul_right hcon (Nat.pos_pow_of_pos _ (by omega))
      omega
    rw [hov]
    exact ⟨p * 2 ^ (k + 1), Int.negSucc k, by simp, rfl⟩

theorem roundDec_nat (neg : Bool) {m : Nat} (len : Nat) (hlt : m < 2 ^ 53) :
    ∃ n e, roundDec neg m 0 len = .finite neg n e ∧ exactNat n e m := by
  by_cases hm : m = 0
  · subst hm
    refine ⟨0, 0, by simp [roundDec], ?_⟩
    show (0 : Nat) * 2 ^ 0 = 0
    norm_num
  · have hres : roundDec neg m 0 len = roundPos neg m 1 := by
      simp only [roundDec, if_neg hm]
      rw [if_neg (by norm_num), if_neg (by omega), if_pos (le_refl (0 : Int))]
      norm_num
    rw [hres]
    exact roundPos_exact neg (Nat.pos_of_ne_zero hm) hlt

theorem floatMulNat_exact (neg : Bool) {n : Nat} {e : Int} {v mult : Nat}
    (hex : exactNat n e v) (hlt : v * mult < 2 ^ 1024) :
    floatMulNat (.finite neg n e) mult = .finite neg (n * mult) e ∧
      exactNat (n * mult) e (v * mult) := by
  have hexm : exactNat (n * mult) e (v * mult) := by
    cases e with
    | ofNat k =>
      show n * mult * 2 ^ k = v * mult
      have h := hex
      have h' : n * 2 ^ k = v := h
      calc n * mult * 2 ^ k = n * 2 ^ k * mult := by ring
      _ = v * mult := by rw [h']
    | negSucc k =>
      show n * mult = v * mult * 2 ^ (k + 1)
      have h' : n = v * 2 ^ (k + 1) := hex
      rw [h']
      ring
  refine ⟨?_, hexm⟩
  have hov : sigValGE (n * mult) e 1024 = false := by
    cases e with
    | ofNat k =>
      simp only [sigValGE, decide_eq_false_iff_not]
      have h' : n * mult * 2 ^ k = v * mult := hexm
      omega
    | negSucc k =>
      simp only [sigValGE, decide_eq_false_iff_not]
      intro hcon
      have h' : n * mult = v * mult * 2 ^ (k + 1) := hexm
      rw [h'] at hcon
      have : 2 ^ 1024 ≤ v * mult :=
        Nat.le_of_mul_le_mul_right hcon (Nat.pos_pow_of_pos _ (by omega))
      omega
  simp only [floatMulNat, hov]
  simp

theorem truncMag_exact {n : Nat} {e : Int} {v : Nat} (hex : exactNat n e v) :
    truncMag n e = v := by
  cases e with
  | ofNat k => exact hex
  | negSucc k =>
    have h' : n = v * 2 ^ (k + 1) := hex
    have hpos : 0 < 2 ^ (k + 1) := Nat.pos_pow_of_pos _ (by omega)
    show n / 2 ^ (k + 1) = v
    rw [h']
    exact Nat.mul_div_cancel v hpos

theorem pyFloatChars_digits {d : List Char} (hd : d ≠ [])
    (h : ∀ c ∈ d, c ∈ decimalDigits) (hlt : digitsVal d < 2 ^ 53) :
    ∃ n e, pyFloatChars d = some (.finite false n e) ∧ exactNat n e (digitsVal d) := by
  have hdig : ∀ c ∈ d, c.isDigit = true :=
    fun c hc => (by decide : ∀ x ∈ decimalDigits, x.isDigit = true) c (h c hc)
  have hnospace : ∀ c ∈ d, pyIsSpace c = false :=
    fun c hc => (by decide : ∀ x ∈ decimalDigits, pyIsSpace x = false) c (h c hc)
  have hlower : d.map pyLowerChar = d := by
    have hfix : ∀ c ∈ d, pyLowerChar c = c :=
      fun c hc => (by decide : ∀ x ∈ decimalDigits, pyLowerChar x = x) c (h c hc)
    calc d.map pyLowerChar = d.map id := List.map_congr_left hfix
    _ = d := List.map_id d
  have hinf1 : d ≠ ['i', 'n', 'f'] := by
    intro hcon
    have := h 'i' (by rw [hcon]; exact List.mem_cons_self _ _)
    revert this; decide
  have hinf2 : d ≠ ['i', 'n', 'f', 'i', 'n', 'i', 't', 'y'] := by
    intro hcon
    have := h 'i' (by rw [hcon]; exact List.mem_cons_self _ _)
    revert this; decide
  have hnan : d ≠ ['n', 'a', 'n'] := by
    intro hcon
    have := h 'n' (by rw [hcon]; exact List.mem_cons_self _ _)
    revert this; decide
  have hneg : (decide ((1 : Int) < 0)) = false := by decide
  obtain ⟨n, e, hro, hex⟩ := roundDec_nat false (m := digitsVal d) d.length hlt
  refine ⟨n, e, ?_, hex⟩
  simp only [pyFloatChars, pyStripChars_eq_self hnospace, hlower, readSign_digits hd h,
    hneg]
  rw [if_neg (by rintro (hc | hc) <;> [exact hinf1 hc; exact hinf2 hc]), if_neg hnan,
    parseMantissa_digits hd hdig]
  show some (roundDec false (digitsVal d) ((0 : Int) - ((0 : Nat) : Int)) d.length) = _
  norm_num [hro]

theorem take_pre_append (d suf : List Char) :
    (d ++ suf).take ((d ++ suf).length - suf.length) = d := by
  rw [List.length_append, Nat.add_sub_cancel]
  exact List.take_left _ _

theorem findMemSuffix_digits_append {d : List Char} (hd : d ≠ [])
    (hdig : ∀ c ∈ d, c ∈ decimalDigits) {suf : List Char} {mult : Nat}
    (hmem : (suf, mult) ∈ memorySuffixes) :
    findMemSuffix (d ++ suf) memorySuffixes = some (d, mult) := by
  obtain ⟨c, ct, hrev⟩ : ∃ c ct, d.reverse = c :: ct := by
    cases hr : d.reverse with
    | nil => exact absurd (List.reverse_eq_nil_iff.1 hr) hd
    | cons c ct => exact ⟨c, ct, rfl⟩
  have hcd : c ∈ decimalDigits :=
    hdig c (List.mem_reverse.1 (hrev ▸ List.mem_cons_self _ _))
  have hck : c ≠ 'k' := (by decide : ∀ x ∈ decimalDigits, x ≠ 'k') c hcd
  have hcm : c ≠ 'm' := (by decide : ∀ x ∈ decimalDigits, x ≠ 'm') c hcd
  have hcg : c ≠ 'g' := (by decide : ∀ x ∈ decimalDigits, x ≠ 'g') c hcd
  have hct : c ≠ 't' := (by decide : ∀ x ∈ decimalDigits, x ≠ 't') c hcd
  have hcb : c ≠ 'b' := (by decide : ∀ x ∈ decimalDigits, x ≠ 'b') c hcd
  have htake := take_pre_append d suf
  simp only [memorySuffixes, List.mem_cons, Prod.mk.injEq, List.mem_singleton,
    List.not_mem_nil, or_false] at hmem
  rcases hmem with h9 | h9 | h9 | h9 | h9 | h9 | h9 | h9 | h9 <;>
    obtain ⟨rfl, rfl⟩ := h9 <;>
    simp only [memorySuffixes, findMemSuffix, List.reverse_append, hrev] <;>
    norm_num [List.reverse_cons, isPrefixOf_self_append, isPrefixOf_cons_same,
      isPrefixOf_cons_ne, hck, hcm, hcg, hct, hcb, Ne.symm hck, Ne.symm hcm,
      Ne.symm hcg, Ne.symm hct, Ne.symm hcb, htake] <;>
    simp

set_option exponentiation.threshold 2000 in
set_option maxRecDepth 8000 in
/-- **C7**: `parse_memory_string` accepts the suffixes `b/k/kb/m/mb/g/gb/t/tb`
case-insensitively (any spelling that lowercases to a table suffix), matching
the longest suffix first (the table is ordered by decreasing length): every
digit string whose byte value stays below `2^53` — the range in which the
source's binary64 `float()` arithmetic is exact; beyond it the rounded
value can differ from the decimal one, see `float_model_fidelity` — parses
to exactly `digits × multiplier`; every input on which the source's
`float()`/`int()` raise `ValueError` returns `None`; and the spec's
round-trip examples hold. -/
theorem parse_memory_string_spec :
    (∀ (d sufV suf : List Char) (mult : Nat),
        (suf, mult) ∈ memorySuffixes → d ≠ [] → (∀ c ∈ d, c ∈ decimalDigits) →
        sufV.map pyLowerChar = suf → digitsVal d * mult < 2 ^ 53 →
        parse_memory_string (String.mk (d ++ sufV)) =
          .ok (some ((digitsVal d * mult : Nat) : Int))) ∧
    (∀ s : String,
        (∀ pre mult, findMemSuffix ((pyStripChars s.data).map pyLowerChar) memorySuffixes =
          some (pre, mult) → pyFloatChars pre = none) →
        pyIntLit ((pyStripChars s.data).map pyLowerChar) = none →
        parse_memory_string s = .ok none) ∧
    parse_memory_string "512m" = .ok (some (512 * 1024 * 1024)) ∧
    parse_memory_string "1g" = .ok (some 1073741824) ∧
    parse_memory_string "2gb" = .ok (some (2 * 1073741824)) ∧
    parse_memory_string "100" = .ok (some 100) ∧
    parse_memory_string "" = .ok Option.none ∧
    parse_memory_string "bogus" = .ok Option.none := by
  refine ⟨?uni, ?mal, by rfl, by rfl, by rfl, by rfl, by rfl, by rfl⟩
  case mal =>
    intro s hfl hint
    simp only [parse_memory_string]
    split
    · rfl
    · cases hms : findMemSuffix ((pyStripChars s.data).map pyLowerChar) memorySuffixes with
      | none =>
        simp only [hms]
        rw [hint]
      | some pm =>
        obtain ⟨pre, mult⟩ := pm
        simp only [hms]
        rw [hfl pre mult hms]
  intro d sufV suf mult hmem hd hdig hlow hbound
  have hsufletters : ∀ x ∈ suf, x ∈ ['b', 'k', 'm', 'g', 't'] := by
    have := (by decide :
      ∀ p ∈ memorySuffixes, ∀ x ∈ p.1, x ∈ ['b', 'k', 'm', 'g', 't'])
    exact fun x hx => this (suf, mult) hmem x hx
  have hnospace : ∀ ch ∈ d ++ sufV, pyIsSpace ch = false := by
    intro ch hch
    rcases List.mem_append.1 hch with hchd | hchs
    · exact (by decide : ∀ x ∈ decimalDigits, pyIsSpace x = false) ch (hdig ch hchd)
    · by_contra hsp
      have hsp' : pyIsSpace ch = true := by
        cases hb : pyIsSpace ch with
        | false => exact absurd hb hsp
        | true => rfl
      have hws : ch ∈ ([' ', '\t', '\n', '\r', '\x0b', '\x0c'] : List Char) :=
        of_decide_eq_true hsp'
      simp only [List.mem_cons, List.not_mem_nil, or_false] at hws
      have hlc : pyLowerChar ch ∈ suf := hlow ▸ List.mem_map_of_mem _ hchs
      have hll := hsufletters _ hlc
      rcases hws with rfl | rfl | rfl | rfl | rfl | rfl <;> revert hll <;> decide
  have hne : String.mk (d ++ sufV) ≠ "" := by
    intro hcontra
    have : d ++ sufV = [] := by
      have := congrArg String.data hcontra
      simpa using this
    exact hd (List.append_eq_nil.1 this).1
  have hmap : (d ++ sufV).map pyLowerChar = d ++ suf := by
    rw [List.map_append, hlow]
    congr 1
    have : ∀ c ∈ d, pyLowerChar c = c :=
      fun c hc => (by decide : ∀ x ∈ decimalDigits, pyLowerChar x = x) c (hdig c hc)
    calc d.map pyLowerChar = d.map id := List.map_congr_left this
    _ = d := List.map_id d
  have hm1 : 1 ≤ mult := (by decide : ∀ p ∈ memorySuffixes, 1 ≤ p.2) (suf, mult) hmem
  have hdlt : digitsVal d < 2 ^ 53 :=
    lt_of_le_of_lt (Nat.le_mul_of_pos_right _ (by omega)) hbound
  have h1024 : digitsVal d * mult < 2 ^ 1024 :=
    lt_trans hbound (Nat.pow_lt_pow_right (by norm_num) (by norm_num))
  obtain ⟨n, e, hfl, hex⟩ := pyFloatChars_digits hd hdig hdlt
  obtain ⟨hmul, hex2⟩ := floatMulNat_exact false hex h1024
  simp only [parse_memory_string]
  rw [if_neg hne]
  simp only [String.data, pyStripChars_eq_self hnospace, hmap,
    findMemSuffix_digits_append hd hdig hmem, hfl, hmul]
  simp [truncMag_exact hex2]

/-- Witness for C7's universal part: the mixed-case `"512M"`
(digits `512`, suffix `M` lowering to `m`). -/
theorem parse_memory_string_spec_witness :
    ((['m'], (1048576 : Nat)) ∈ memorySuffixes ∧ (['5', '1', '2'] : List Char) ≠ [] ∧
      (∀ c ∈ (['5', '1', '2'] : List Char), c ∈ decimalDigits) ∧
      ['M'].map pyLowerChar = ['m'] ∧ digitsVal ['5', '1', '2'] * 1048576 < 2 ^ 53) ∧
    parse_memory_string (String.mk (['5', '1', '2'] ++ ['M'])) =
      .ok (some ((digitsVal ['5', '1', '2'] * 1048576 : Nat) : Int)) :=
  ⟨⟨by decide, by decide, by decide, by decide, by decide⟩,
    parse_memory_string_spec.1 ['5', '1', '2'] ['M'] ['m'] 1048576
      (by decide) (by decide) (by decide) (by decide) (by decide)⟩

set_option exponentiation.threshold 2000 in
set_option maxRecDepth 8000 in
/-- The binary64 model is the source's arithmetic, not a rationalization:
`float("9007199254740993")` (`2^53 + 1`) rounds to the even neighbour
`2^53`, so the byte value comes back off by one; a digit string of
`10^309` overflows to infinity and `int()` of it raises the uncaught
`OverflowError` (as does an explicit `inf` numeric part); and a `nan`
numeric part raises `ValueError` inside `int()`, which is caught and
returns `None`. Digit-group underscores are accepted as by CPython. -/
theorem float_model_fidelity :
    parse_memory_string "9007199254740993b" = .ok (some 9007199254740992) ∧
    parse_memory_string (String.mk ('1' :: (List.replicate 309 '0' ++ ['b']))) =
      .error () ∧
    parse_memory_string "infb" = .error () ∧
    parse_memory_string "nanb" = .ok none ∧
    parse_memory_string "1_0k" = .ok (some 10240) :=
  ⟨by rfl, by rfl, by rfl, by rfl, by rfl⟩

/-! ### C6: namespace availability detection and unshare -/

/-- **C6 counterexample**: with `/proc/sys/kernel/unprivileged_userns_clone`
absent and the process running as root, the claim says the user namespace is
available, but `_detect_available_namespaces` does not add `USER` (it is
added only when the file reads `1`). -/
theorem detect_userns_counterexample :
    (⟨true, Option.none⟩ : NsEnv).userns_file = Option.none ∧
    (⟨true, Option.none⟩ : NsEnv).is_root = true ∧
    NamespaceType.user ∉ detect_available_namespaces ⟨true, Option.none⟩ := by
  decide

/-- **C6 amended**: user namespace available iff the `unprivileged_userns_clone`
file exists, is readable and reads `1` (root status is irrelevant to it);
as root all of mount/uts/ipc/pid/net/cgroup are additionally available;
non-root with user namespaces enabled yields exactly
{user, mount, uts, ipc, pid}; and `unshare` with an empty effective set
returns success as a no-op without invoking the syscall. -/
theorem detect_unshare_amended :
    (∀ env : NsEnv,
        NamespaceType.user ∈ detect_available_namespaces env ↔ user_ns_enabled env = true) ∧
    (∀ env : NsEnv, env.is_root = true →
        ∀ t ∈ [NamespaceType.mount, NamespaceType.uts, NamespaceType.ipc,
               NamespaceType.pid, NamespaceType.net, NamespaceType.cgroup],
          t ∈ detect_available_namespaces env) ∧
    (∀ env : NsEnv, env.is_root = false → user_ns_enabled env = true →
        ∀ t : NamespaceType, t ∈ detect_available_namespaces env ↔
          t ∈ [NamespaceType.user, NamespaceType.mount, NamespaceType.uts,
               NamespaceType.ipc, NamespaceType.pid]) ∧
    (∀ ctx : UnshareCtx, ctx.is_available = true → effectiveNamespaces ctx = [] →
        unshare ctx = (true, false)) := by
  refine ⟨?_, ?_, ?_, ?_⟩
  · intro env
    by_cases he : user_ns_enabled env <;>
      by_cases hr : env.is_root <;>
        simp [detect_available_namespaces, he, hr]
  · intro env hr t ht
    by_cases he : user_ns_enabled env
    all_goals
      simp only [detect_available_namespaces, he, hr, if_true, if_false]
      revert ht
      simp
      try tauto
  · intro env hr he t
    simp [detect_available_namespaces, he, hr]
  · intro ctx hav heff
    unfold unshare
    rw [hav, heff]
    simp

/-- Witness for C6's amended theorem: a non-root host whose userns file
reads `1`, a root host without the file, and an unshare request whose
effective set is empty. -/
theorem detect_unshare_amended_witness :
    (NamespaceType.user ∈ detect_available_namespaces ⟨false, some (some "1")⟩ ↔
      user_ns_enabled ⟨false, some (some "1")⟩ = true) ∧
    NamespaceType.net ∈ detect_available_namespaces ⟨true, Option.none⟩ ∧
    (NamespaceType.net ∈ detect_available_namespaces ⟨false, some (some "1")⟩ ↔
      NamespaceType.net ∈ [NamespaceType.user, NamespaceType.mount, NamespaceType.uts,
                           NamespaceType.ipc, NamespaceType.pid]) ∧
    unshare ⟨true, [], [NamespaceType.pid], true⟩ = (true, false) :=
  ⟨detect_unshare_amended.1 ⟨false, some (some "1")⟩,
   detect_unshare_amended.2.1 ⟨true, Option.none⟩ rfl NamespaceType.net (by decide),
   detect_unshare_amended.2.2.1 ⟨false, some (some "1")⟩ rfl (by decide) NamespaceType.net,
   detect_unshare_amended.2.2.2 ⟨true, [], [NamespaceType.pid], true⟩ rfl (by decide)⟩

/-! ### C2, C3: restart policy, exhaustion and backoff -/

theorem should_restart_on_failure {mr : Nat} {d : ℚ} {c : Int} (hc : c ≠ 0) :
    should_restart ⟨"on-failure", mr, d⟩ (some c) = true := by
  simp [should_restart, hc]

theorem monitor_cycle_onfail_exhausted {mr : Nat} {d : ℚ} (hc : Option HealthCheckCfg)
    (o : CycleObs) (st : MonState) (hrun : o.is_running = false)
    (hexit : ∃ c, o.exit_code = some c ∧ c ≠ 0)
    (hmr : 0 < mr) (hge : mr ≤ st.health.restart_count) :
    monitor_cycle ⟨"on-failure", mr, d⟩ hc o st =
      ({ st with health := { st.health with status := .unhealthy } }, noEvents) := by
  obtain ⟨c, he, hc0⟩ := hexit
  unfold monitor_cycle
  rw [hrun, he]
  rw [if_pos rfl, if_pos (by rw [should_restart_on_failure hc0])]
  unfold handle_restart
  rw [if_pos ⟨hmr, hge⟩]

theorem monitor_cycle_onfail_active {mr : Nat} {d : ℚ} (hc : Option HealthCheckCfg)
    (o : CycleObs) (st : MonState) (hrun : o.is_running = false)
    (hexit : ∃ c, o.exit_code = some c ∧ c ≠ 0) (hok : o.restart_ok = true)
    (hlt : ¬(0 < mr ∧ mr ≤ st.health.restart_count)) :
    ∃ dl sl,
      monitor_cycle ⟨"on-failure", mr, d⟩ hc o st =
        (⟨{ st.health with
              restart_count := st.health.restart_count + 1,
              last_restart := some o.timestamp,
              status := .unhealthy },
          some dl⟩,
         ⟨true, false, sl⟩) := by
  obtain ⟨c, he, hc0⟩ := hexit
  refine ⟨min ((st.restart_delay.getD (if 0 < d then d else 1)) * 2) 300,
    if 0 < st.restart_delay.getD (if 0 < d then d else 1)
      then some (st.restart_delay.getD (if 0 < d then d else 1)) else Option.none, ?_⟩
  unfold monitor_cycle
  rw [hrun, he]
  rw [if_pos rfl, if_pos (by rw [should_restart_on_failure hc0])]
  unfold handle_restart
  rw [if_neg hlt, if_pos hok]

theorem monitor_run_onfail (d : ℚ) (hc : Option HealthCheckCfg) :
    ∀ (obsl : List CycleObs) (st : MonState),
      (∀ o ∈ obsl, o.is_running = false ∧ o.restart_ok = true ∧
        ∃ c, o.exit_code = some c ∧ c ≠ 0) →
      ((monitor_run ⟨"on-failure", 2, d⟩ hc obsl st).1.health.restart_count =
        min (st.health.restart_count + obsl.length) (max st.health.restart_count 2)) ∧
      (∀ ev ∈ (monitor_run ⟨"on-failure", 2, d⟩ hc obsl st).2, ev.callback_fired = false) ∧
      ((monitor_run ⟨"on-failure", 2, d⟩ hc obsl st).2.countP (fun e => e.restarted) =
        min (2 - st.health.restart_count) obsl.length) ∧
      (2 ≤ st.health.restart_count →
        ∀ ev ∈ (monitor_run ⟨"on-failure", 2, d⟩ hc obsl st).2, ev = noEvents) ∧
      (obsl ≠ [] → (monitor_run ⟨"on-failure", 2, d⟩ hc obsl st).1.health.status = .unhealthy) := by
  intro obsl
  induction obsl with
  | nil =>
    intro st _
    refine ⟨?_, by simp [monitor_run], by simp [monitor_run], by simp [monitor_run], by simp⟩
    simp only [monitor_run, List.length_nil, Nat.add_zero]
    omega
  | cons o os ih =>
    intro st hfail
    have ho := hfail o (List.mem_cons_self _ _)
    have hos : ∀ o' ∈ os, o'.is_running = false ∧ o'.restart_ok = true ∧
        ∃ c, o'.exit_code = some c ∧ c ≠ 0 :=
      fun o' h' => hfail o' (List.mem_cons_of_mem _ h')
    by_cases hge : 2 ≤ st.health.restart_count
    · have hcyc := @monitor_cycle_onfail_exhausted 2 d hc o st ho.1 ho.2.2
        (by omega) hge
      have hrec := ih { st with health := { st.health with status := .unhealthy } } hos
      simp only [monitor_run, hcyc] at *
      refine ⟨?_, ?_, ?_, ?_, ?_⟩
      · rw [hrec.1]; simp only [List.length_cons]; omega
      · intro ev hev
        rcases List.mem_cons.1 hev with rfl | hev'
        · rfl
        · exact hrec.2.1 ev hev'
      · rw [List.countP_cons]
        have hcnt := hrec.2.2.1
        rw [hcnt]
        simp [noEvents]
        omega
      · intro _ ev hev
        rcases List.mem_cons.1 hev with rfl | hev'
        · rfl
        · exact hrec.2.2.2.1 hge ev hev'
      · intro _
        rcases hos0 : os with _ | ⟨o2, os2⟩
        · rfl
        · have := hrec.2.2.2.2 (by simp [hos0])
          rw [hos0] at *
          exact this
    · have hcyc := @monitor_cycle_onfail_active 2 d hc o st ho.1 ho.2.2 ho.2.1
        (fun hand => hge hand.2)
      obtain ⟨dl, sl, hcyc⟩ := hcyc
      have hrec := ih ⟨{ st.health with
          restart_count := st.health.restart_count + 1,
          last_restart := some o.timestamp,
          status := .unhealthy }, some dl⟩ hos
      simp only [monitor_run, hcyc] at *
      refine ⟨?_, ?_, ?_, ?_, ?_⟩
      · rw [hrec.1]; simp only [List.length_cons]; omega
      · intro ev hev
        rcases List.mem_cons.1 hev with rfl | hev'
        · rfl
        · exact hrec.2.1 ev hev'
      · rw [List.countP_cons]
        have hcnt := hrec.2.2.1
        rw [hcnt]
        simp
        omega
      · intro hcontra
        omega
      · intro _
        rcases hos0 : os with _ | ⟨o2, os2⟩
        · rfl
        · have := hrec.2.2.2.2 (by simp [hos0])
          rw [hos0] at *
          exact this

theorem monitor_run_length (pol : RestartPolicy) (hc : Option HealthCheckCfg) :
    ∀ (obsl : List CycleObs) (st : MonState),
      (monitor_run pol hc obsl st).2.length = obsl.length := by
  intro obsl
  induction obsl with
  | nil => intro st; rfl
  | cons o os ih =>
    intro st
    simp only [monitor_run, List.length_cons]
    rw [ih]

/-- **C2**: with restart policy `on-failure`, `maxRetries = 2`, and a process
found dead with a non-zero exit code at every monitor cycle (restarts
themselves succeeding), `restartCount` stabilizes at exactly 2, exactly two
restart attempts occur and none after the first two cycles, the service is
left UNHEALTHY, and the failure callback never fires; moreover for any
`maxRetries > 0`, a failing cycle that finds `restartCount` at or past
`maxRetries` performs no restart attempt and fires no callback, changing
nothing but the UNHEALTHY status. -/
theorem restart_exhaustion_spec (d : ℚ) (hc : Option HealthCheckCfg)
    (obsl : List CycleObs)
    (hfail : ∀ o ∈ obsl, o.is_running = false ∧ o.restart_ok = true ∧
      ∃ c, o.exit_code = some c ∧ c ≠ 0) :
    ((monitor_run ⟨"on-failure", 2, d⟩ hc obsl monInit).1.health.restart_count =
        min obsl.length 2) ∧
    ((monitor_run ⟨"on-failure", 2, d⟩ hc obsl monInit).2.countP (fun e => e.restarted) =
        min obsl.length 2) ∧
    (∀ ev ∈ (monitor_run ⟨"on-failure", 2, d⟩ hc obsl monInit).2, ev.callback_fired = false) ∧
    (∀ ev ∈ (monitor_run ⟨"on-failure", 2, d⟩ hc obsl monInit).2.drop 2, ev = noEvents) ∧
    (obsl ≠ [] →
      (monitor_run ⟨"on-failure", 2, d⟩ hc obsl monInit).1.health.status = .unhealthy) ∧
    (∀ (mr : Nat) (st : MonState) (o : CycleObs), 0 < mr → mr ≤ st.health.restart_count →
      o.is_running = false → (∃ c, o.exit_code = some c ∧ c ≠ 0) →
      monitor_cycle ⟨"on-failure", mr, d⟩ hc o st =
        ({ st with health := { st.health with status := .unhealthy } }, noEvents)) := by
  have h := monitor_run_onfail d hc obsl monInit hfail
  have h0 : monInit.health.restart_count = 0 := rfl
  refine ⟨?_, ?_, h.2.1, ?_, h.2.2.2.2, ?_⟩
  · rw [h.1, h0]; omega
  · rw [h.2.2.1, h0]; omega
  · rcases obsl with _ | ⟨o1, rest1⟩
    · simp [monitor_run]
    rcases rest1 with _ | ⟨o2, rest2⟩
    · intro ev hev
      rw [List.drop_eq_nil_of_le
        (by rw [monitor_run_length]; simp :
          (monitor_run ⟨"on-failure", 2, d⟩ hc [o1] monInit).2.length ≤ 2)] at hev
      simp at hev
    · have ho1 := hfail o1 (by simp)
      have ho2 := hfail o2 (by simp)
      have hrest : ∀ o ∈ rest2, o.is_running = false ∧ o.restart_ok = true ∧
          ∃ c, o.exit_code = some c ∧ c ≠ 0 :=
        fun o ho => hfail o (by simp [ho])
      obtain ⟨dl1, sl1, hcyc1⟩ := @monitor_cycle_onfail_active 2 d hc o1 monInit
        ho1.1 ho1.2.2 ho1.2.1 (by intro hand; have := hand.2; rw [h0] at this; omega)
      obtain ⟨dl2, sl2, hcyc2⟩ := @monitor_cycle_onfail_active 2 d hc o2
        ⟨{ monInit.health with restart_count := monInit.health.restart_count + 1, last_restart := some o1.timestamp, status := .unhealthy }, some dl1⟩
        ho2.1 ho2.2.2 ho2.2.1 (fun hand => absurd hand.2
          (show ¬2 ≤ monInit.health.restart_count + 1 by decide))
      simp only [monitor_run, hcyc1, hcyc2, List.drop_succ_cons, List.drop_zero]
      exact (monitor_run_onfail d hc rest2 _ hrest).2.2.2.1 (Nat.le_refl 2)
  · intro mr st o hmr hge hrun hexit
    exact monitor_cycle_onfail_exhausted hc o st hrun hexit hmr hge

/-- Witness for C2: three consecutive failing observations. -/
theorem restart_exhaustion_spec_witness :
    (∀ o ∈ [failObs, failObs, failObs], o.is_running = false ∧ o.restart_ok = true ∧
      ∃ c, o.exit_code = some c ∧ c ≠ 0) ∧
    (((monitor_run ⟨"on-failure", 2, 0⟩ Option.none [failObs, failObs, failObs]
        monInit).1.health.restart_count = min [failObs, failObs, failObs].length 2) ∧
     ((monitor_run ⟨"on-failure", 2, 0⟩ Option.none [failObs, failObs, failObs]
        monInit).2.countP (fun e => e.restarted) = min [failObs, failObs, failObs].length 2) ∧
     (∀ ev ∈ (monitor_run ⟨"on-failure", 2, 0⟩ Option.none [failObs, failObs, failObs]
        monInit).2, ev.callback_fired = false) ∧
     (∀ ev ∈ (monitor_run ⟨"on-failure", 2, 0⟩ Option.none [failObs, failObs, failObs]
        monInit).2.drop 2, ev = noEvents) ∧
     ([failObs, failObs, failObs] ≠ ([] : List CycleObs) →
       (monitor_run ⟨"on-failure", 2, 0⟩ Option.none [failObs, failObs, failObs]
         monInit).1.health.status = .unhealthy) ∧
     (∀ (mr : Nat) (st : MonState) (o : CycleObs), 0 < mr → mr ≤ st.health.restart_count →
       o.is_running = false → (∃ c, o.exit_code = some c ∧ c ≠ 0) →
       monitor_cycle ⟨"on-failure", mr, 0⟩ Option.none o st =
         ({ st with health := { st.health with status := .unhealthy } }, noEvents))) := by
  have hf : ∀ o ∈ [failObs, failObs, failObs], o.is_running = false ∧ o.restart_ok = true ∧
      ∃ c, o.exit_code = some c ∧ c ≠ 0 := by
    intro o ho
    simp only [List.mem_cons, List.not_mem_nil, or_false] at ho
    rcases ho with rfl | rfl | rfl <;> exact ⟨rfl, rfl, 1, rfl, by decide⟩
  exact ⟨hf, restart_exhaustion_spec 0 Option.none [failObs, failObs, failObs] hf⟩

/-- **C3**: the backoff delay slept before a supervisor-triggered restart
starts at `policy.delay` (or 1.0 s when that is not positive), the stored
delay doubles after each consecutive restart capped at 300 s, and a
subsequent successful health check resets the stored delay to 0. -/
theorem backoff_delay_spec :
    (∀ (pol : RestartPolicy) (hc : Option HealthCheckCfg) (obs : CycleObs) (st : MonState),
        obs.is_running = false → should_restart pol obs.exit_code = true →
        obs.restart_ok = true →
        ¬(0 < pol.max_retries ∧ pol.max_retries ≤ st.health.restart_count) →
        st.restart_delay = Option.none →
        (monitor_cycle pol hc obs st).2.slept =
            some (if 0 < pol.delay then pol.delay else 1) ∧
          (monitor_cycle pol hc obs st).1.restart_delay =
            some (min ((if 0 < pol.delay then pol.delay else 1) * 2) 300)) ∧
    (∀ (pol : RestartPolicy) (hc : Option HealthCheckCfg) (obs : CycleObs) (st : MonState)
        (dl : ℚ),
        obs.is_running = false → should_restart pol obs.exit_code = true →
        obs.restart_ok = true →
        ¬(0 < pol.max_retries ∧ pol.max_retries ≤ st.health.restart_count) →
        st.restart_delay = some dl → 0 < dl →
        (monitor_cycle pol hc obs st).2.slept = some dl ∧
          (monitor_cycle pol hc obs st).1.restart_delay = some (min (dl * 2) 300)) ∧
    (∀ (pol : RestartPolicy) (hcc : HealthCheckCfg) (obs : CycleObs) (st : MonState),
        obs.is_running = true → ¬(obs.elapsed < hcc.start_period) →
        obs.check_success = true →
        (monitor_cycle pol (some hcc) obs st).1.restart_delay = some 0) := by
  refine ⟨?_, ?_, ?_⟩
  · intro pol hc obs st hrun hsr hok hexh hnone
    have hbase : (0 : ℚ) < (if 0 < pol.delay then pol.delay else 1) := by
      split
      · assumption
      · exact zero_lt_one
    simp only [monitor_cycle, handle_restart, hrun, hsr, hok, hnone, if_neg hexh,
      if_pos rfl, if_true, Option.getD_none, Option.getD_some]
    rw [if_pos hbase]
    simp
  · intro pol hc obs st dl hrun hsr hok hexh hsome hpos
    simp only [monitor_cycle, handle_restart, hrun, hsr, hok, hsome, if_neg hexh,
      if_pos rfl, if_true, Option.getD_some]
    rw [if_pos hpos]
    simp
  · intro pol hcc obs st hrun hnlt hsucc
    simp only [monitor_cycle, hrun, hsucc, if_neg hnlt]
    simp

/-- Witness for C3: a fresh service with `delay = 0` (base 1 s), a service
with stored delay 1 s, and a passing health check. -/
theorem backoff_delay_spec_witness :
    ((failObs.is_running = false ∧
        should_restart ⟨"always", 0, 0⟩ failObs.exit_code = true ∧
        failObs.restart_ok = true ∧ monInit.restart_delay = Option.none) ∧
      (monitor_cycle ⟨"always", 0, 0⟩ Option.none failObs monInit).2.slept =
          some (if 0 < (⟨"always", 0, 0⟩ : RestartPolicy).delay
                then (⟨"always", 0, 0⟩ : RestartPolicy).delay else 1)) ∧
    ((⟨{}, some 1⟩ : MonState).restart_delay = some 1 ∧ (0 : ℚ) < 1 ∧
      (monitor_cycle ⟨"always", 0, 0⟩ Option.none failObs ⟨{}, some 1⟩).2.slept = some 1) ∧
    ((⟨true, Option.none, true, 0, true, "", "T"⟩ : CycleObs).check_success = true ∧
      (monitor_cycle ⟨"always", 0, 0⟩
          (some ⟨["NONE"], 30, 30, 3, 0⟩)
          ⟨true, Option.none, true, 0, true, "", "T"⟩ ⟨{}, some 4⟩).1.restart_delay = some 0) :=
  ⟨⟨⟨rfl, by decide, rfl, rfl⟩,
    (backoff_delay_spec.1 ⟨"always", 0, 0⟩ Option.none failObs monInit rfl (by decide) rfl
      (by decide) rfl).1⟩,
   ⟨rfl, zero_lt_one,
    (backoff_delay_spec.2.1 ⟨"always", 0, 0⟩ Option.none failObs ⟨{}, some 1⟩ 1 rfl
      (by decide) rfl (by decide) rfl zero_lt_one).1⟩,
   ⟨rfl,
    backoff_delay_spec.2.2 ⟨"always", 0, 0⟩ ⟨["NONE"], 30, 30, 3, 0⟩
      ⟨true, Option.none, true, 0, true, "", "T"⟩ ⟨{}, some 4⟩ rfl (lt_irrefl 0) rfl⟩⟩

/-! ### C10: get_health on an untracked service -/

/-- **C10**: `get_health` on a never-tracked name returns the default
`ServiceHealth` record (status NONE, zero streak and restart count, no
timestamps) and leaves the tracked map unchanged, the name still absent. -/
theorem get_health_untracked (health_map : List (String × ServiceHealth)) (name : String)
    (h : lookupA health_map name = Option.none) :
    get_health health_map name =
      ({ status := HealthStatus.none, failing_streak := 0, last_check := Option.none,
         last_output := "", restart_count := 0, last_restart := Option.none }, health_map) ∧
    lookupA (get_health health_map name).2 name = Option.none := by
  unfold get_health
  rw [h]
  exact ⟨rfl, rfl⟩

/-- Witness for C10 at a concrete map that tracks `db` but not `web`. -/
theorem get_health_untracked_witness :
    lookupA [("db", ({ status := HealthStatus.healthy } : ServiceHealth))] "web" = Option.none ∧
    (get_health [("db", ({ status := HealthStatus.healthy } : ServiceHealth))] "web" =
      ({ status := HealthStatus.none, failing_streak := 0, last_check := Option.none,
         last_output := "", restart_count := 0, last_restart := Option.none },
       [("db", ({ status := HealthStatus.healthy } : ServiceHealth))]) ∧
     lookupA (get_health [("db", ({ status := HealthStatus.healthy } : ServiceHealth))] "web").2
       "web" = Option.none) :=
  ⟨by decide, get_health_untracked _ _ (by decide)⟩

/-! ### C4: port allocation -/

theorem allocPortsLoop_error (os : PortOS) (name : String) :
    ∀ (ports : List (Nat × Option Nat)) (k : Nat) (maps : List (Nat × Nat))
      (hps : List (Nat × String)),
      (∃ c hp, (c, some hp) ∈ ports ∧ os.isFree hp = false) →
      ∃ p, allocPortsLoop os name ports k maps hps =
          .error ("Port " ++ toString p ++ " is already in use, cannot start service "
            ++ name) ∧
        os.isFree p = false ∧ ∃ c', (c', some p) ∈ ports := by
  intro ports
  induction ports with
  | nil =>
    rintro k maps hps ⟨c, hp, hmem, -⟩
    simp at hmem
  | cons pr rest ih =>
    rcases pr with ⟨c0, hopt⟩
    rintro k maps hps ⟨c, hp, hmem, hbusy⟩
    rcases hopt with _ | hp0
    · have hmem' : (c, some hp) ∈ rest := by
        rcases List.mem_cons.1 hmem with heq | h
        · exact absurd (congrArg Prod.snd heq) (by simp)
        · exact h
      obtain ⟨p, hres, hfree, c', hmem2⟩ := ih _ _ _ ⟨c, hp, hmem', hbusy⟩
      exact ⟨p, by simpa [allocPortsLoop] using hres, hfree, c', List.mem_cons_of_mem _ hmem2⟩
    · by_cases hf : os.isFree hp0 = true
      · have hmem' : (c, some hp) ∈ rest := by
          rcases List.mem_cons.1 hmem with heq | h
          · obtain ⟨-, hsnd⟩ := Prod.mk.injEq .. ▸ heq
            obtain rfl : hp = hp0 := by simpa using congrArg Prod.snd heq
            rw [hf] at hbusy
            cases hbusy
          · exact h
        obtain ⟨p, hres, hfree, c', hmem2⟩ := ih _ _ _ ⟨c, hp, hmem', hbusy⟩
        refine ⟨p, ?_, hfree, c', List.mem_cons_of_mem _ hmem2⟩
        simpa [allocPortsLoop, hf] using hres
      · refine ⟨hp0, ?_, by simpa using hf, c0, List.mem_cons_self _ _⟩
        simp [allocPortsLoop, hf]

/-- **C4 amended**: requesting an explicit host port the OS reports busy is a
hard failure naming the requesting service; a dynamically allocated port is
exactly the operating system's free-port answer (`get_free_port()`),
independent of the ports the manager has recorded to other services in the
same run — the recorded table is never consulted for dynamic allocation. -/
theorem allocate_ports_spec :
    (∀ (os : PortOS) (st : NMState) (svc : ServiceDefLite) (c hp : Nat),
        (c, some hp) ∈ svc.ports → os.isFree hp = false →
        ∃ p, allocate_ports os st svc =
            .error ("Port " ++ toString p ++ " is already in use, cannot start service "
              ++ svc.name) ∧
          os.isFree p = false ∧ ∃ c', (c', some p) ∈ svc.ports) ∧
    (∀ (os : PortOS) (st : NMState) (name : String) (c : Nat) (nets : List String),
        portsResult (allocate_ports os st ⟨name, [(c, Option.none)], nets⟩) =
          some [(c, os.draw 0)]) := by
  constructor
  · intro os st svc c hp hmem hbusy
    obtain ⟨p, hres, hfree, c', hmem'⟩ :=
      allocPortsLoop_error os svc.name svc.ports 0 [] st.host_port_to_service
        ⟨c, hp, hmem, hbusy⟩
    refine ⟨p, ?_, hfree, c', hmem'⟩
    unfold allocate_ports
    rw [hres]
  · intro os st name c nets
    unfold allocate_ports portsResult
    simp [allocPortsLoop, setN, lookupN]

/-- **C4 counterexample**: with host port 8080 already recorded to service
`a` (but not OS-bound, as allocation does not bind), a dynamic allocation
for service `b` hands out 8080 again, so a dynamically allocated host port
can be a port already recorded to another service in the same run. -/
theorem allocate_ports_counterexample :
    portsResult (allocate_ports ⟨fun _ => 8080, fun _ => true⟩
        { nmInit with host_port_to_service := [(8080, "a")] }
        ⟨"b", [(80, Option.none)], []⟩) = some [(80, 8080)] ∧
    lookupN ({ nmInit with host_port_to_service := [(8080, "a")] } : NMState).host_port_to_service
      8080 = some "a" ∧
    ("a" : String) ≠ "b" := by
  decide

/-- Witness for C4's amended theorem: an explicitly requested busy port 9090
fails naming service `web`; a dynamic request is served by the OS draw. -/
theorem allocate_ports_spec_witness :
    (((443, some 9090) ∈ (⟨"web", [(443, some 9090)], []⟩ : ServiceDefLite).ports ∧
        PortOS.isFree ⟨fun _ => 9000, fun p => decide (p ≠ 9090)⟩ 9090 = false) ∧
      (∃ p, allocate_ports ⟨fun _ => 9000, fun p => decide (p ≠ 9090)⟩ nmInit
            ⟨"web", [(443, some 9090)], []⟩ =
          .error ("Port " ++ toString p ++ " is already in use, cannot start service "
            ++ (⟨"web", [(443, some 9090)], []⟩ : ServiceDefLite).name) ∧
        PortOS.isFree ⟨fun _ => 9000, fun p => decide (p ≠ 9090)⟩ p = false ∧
        ∃ c', (c', some p) ∈ (⟨"web", [(443, some 9090)], []⟩ : ServiceDefLite).ports)) ∧
    portsResult (allocate_ports ⟨fun _ => 9000, fun p => decide (p ≠ 9090)⟩ nmInit
        ⟨"api", [(80, Option.none)], []⟩) =
      some [(80, PortOS.draw ⟨fun _ => 9000, fun p => decide (p ≠ 9090)⟩ 0)] :=
  ⟨⟨⟨by decide, by decide⟩,
    allocate_ports_spec.1 ⟨fun _ => 9000, fun p => decide (p ≠ 9090)⟩ nmInit
      ⟨"web", [(443, some 9090)], []⟩ 443 9090 (by decide) (by decide)⟩,
   allocate_ports_spec.2 ⟨fun _ => 9000, fun p => decide (p ≠ 9090)⟩ nmInit "api" 80 []⟩

/-! ### C9: service discovery environment -/

theorem strData_append (s t : String) : (s ++ t).data = s.data ++ t.data := rfl

theorem strEq_of_data {s t : String} (h : s.data = t.data) : s = t := by
  cases s
  cases t
  exact congrArg String.mk h

theorem append_right_inj {s t u : String} (h : s ++ u = t ++ u) : s = t := by
  apply strEq_of_data
  have hd := congrArg String.data h
  rw [strData_append, strData_append] at hd
  exact (List.append_inj' hd rfl).1

theorem host_ne_port (s t : String) : s ++ "_HOST" ≠ t ++ "_PORT" := by
  intro h
  have hd := congrArg String.data h
  rw [strData_append, strData_append] at hd
  have h2 := (List.append_inj' hd (by decide)).2
  exact absurd h2 (by decide)

theorem lookupA_cons {α : Type} (pk : String) (pv : α) (rest : List (String × α))
    (key : String) :
    lookupA ((pk, pv) :: rest) key = if key = pk then some pv else lookupA rest key := rfl

theorem lookupA_map_set {α : Type} (k : String) (v : α) :
    ∀ (m : List (String × α)), (lookupA m k).isSome →
      lookupA (m.map (fun p => if p.1 = k then (k, v) else p)) k = some v := by
  intro m
  induction m with
  | nil => intro h; simp [lookupA] at h
  | cons p rest ih =>
    intro h
    rcases p with ⟨pk, pv⟩
    simp only [List.map_cons]
    by_cases hk : pk = k
    · rw [if_pos hk, lookupA_cons, if_pos rfl]
    · rw [if_neg hk, lookupA_cons, if_neg (fun he => hk he.symm)]
      rw [lookupA_cons, if_neg (fun he => hk he.symm)] at h
      exact ih h

theorem lookupA_append_single_self {α : Type} (k : String) (v : α) :
    ∀ (m : List (String × α)), lookupA m k = Option.none →
      lookupA (m ++ [(k, v)]) k = some v := by
  intro m
  induction m with
  | nil => intro _; simp [lookupA]
  | cons p rest ih =>
    intro h
    rcases p with ⟨pk, pv⟩
    rw [lookupA_cons] at h
    rw [List.cons_append, lookupA_cons]
    split at h
    · cases h
    · rename_i hk
      rw [if_neg hk]
      exact ih h

theorem lookupA_setA_self {α : Type} (m : List (String × α)) (k : String) (v : α) :
    lookupA (setA m k v) k = some v := by
  unfold setA
  split
  · exact lookupA_map_set k v m (by assumption)
  · rename_i h
    exact lookupA_append_single_self k v m (Option.not_isSome_iff_eq_none.1 h)

theorem lookupA_map_set_ne {α : Type} (k k' : String) (v : α) (hne : k' ≠ k) :
    ∀ (m : List (String × α)),
      lookupA (m.map (fun p => if p.1 = k then (k, v) else p)) k' = lookupA m k' := by
  intro m
  induction m with
  | nil => rfl
  | cons p rest ih =>
    rcases p with ⟨pk, pv⟩
    simp only [List.map_cons]
    by_cases hk : pk = k
    · rw [if_pos hk, lookupA_cons, lookupA_cons, if_neg hne,
        if_neg (fun he => hne (he.trans hk))]
      exact ih
    · rw [if_neg hk, lookupA_cons, lookupA_cons]
      split
      · rfl
      · exact ih

theorem lookupA_append_single_ne {α : Type} (k k' : String) (v : α) (hne : k' ≠ k) :
    ∀ (m : List (String × α)), lookupA (m ++ [(k, v)]) k' = lookupA m k' := by
  intro m
  induction m with
  | nil => simp [lookupA, hne]
  | cons p rest ih =>
    rcases p with ⟨pk, pv⟩
    rw [List.cons_append, lookupA_cons, lookupA_cons]
    split
    · rfl
    · exact ih

theorem lookupA_setA_ne {α : Type} (m : List (String × α)) (k k' : String) (v : α)
    (hne : k' ≠ k) : lookupA (setA m k v) k' = lookupA m k' := by
  unfold setA
  split
  · exact lookupA_map_set_ne k k' v hne m
  · exact lookupA_append_single_ne k k' v hne m

theorem lookupA_discoveryStep_ne (st : NMState) (env : List (String × String)) (n key : String)
    (h1 : key ≠ envVarPrefix n ++ "_HOST") (h2 : key ≠ envVarPrefix n ++ "_PORT") :
    lookupA (discoveryStep st env n) key = lookupA env key := by
  unfold discoveryStep
  cases hp : discoveryPort st n
  · simp only [hp]
    exact lookupA_setA_ne _ _ _ _ h1
  · simp only [hp]
    rw [lookupA_setA_ne _ _ _ _ h2, lookupA_setA_ne _ _ _ _ h1]

theorem lookupA_foldl_preserve (st : NMState) (key : String) :
    ∀ (names : List String) (env : List (String × String)),
      (∀ n ∈ names, key ≠ envVarPrefix n ++ "_HOST" ∧ key ≠ envVarPrefix n ++ "_PORT") →
      lookupA (names.foldl (discoveryStep st) env) key = lookupA env key := by
  intro names
  induction names with
  | nil => intro env _; rfl
  | cons n ns ih =>
    intro env h
    rw [List.foldl_cons, ih _ (fun x hx => h x (List.mem_cons_of_mem _ hx))]
    exact lookupA_discoveryStep_ne st env n key (h n (List.mem_cons_self _ _)).1
      (h n (List.mem_cons_self _ _)).2

theorem discovery_lookup_core (st : NMState) :
    ∀ (names : List String) (env : List (String × String)) (name : String),
      name ∈ names → (names.map envVarPrefix).Nodup →
      lookupA (names.foldl (discoveryStep st) env) (envVarPrefix name ++ "_HOST") =
        some (discoveryHost st name) ∧
      ∀ v, discoveryPort st name = some v →
        lookupA (names.foldl (discoveryStep st) env) (envVarPrefix name ++ "_PORT") =
          some v := by
  intro names
  induction names with
  | nil => intro env name hmem; simp at hmem
  | cons n0 ns ih =>
    intro env name hmem hnd
    have hnd' : (envVarPrefix n0 :: ns.map envVarPrefix).Nodup := by
      rw [List.map_cons] at hnd
      exact hnd
    have hnotin : envVarPrefix n0 ∉ ns.map envVarPrefix := (List.nodup_cons.1 hnd').1
    have hndtail : (ns.map envVarPrefix).Nodup := (List.nodup_cons.1 hnd').2
    rcases List.mem_cons.1 hmem with rfl | hmem'
    · rw [List.foldl_cons]
      constructor
      · rw [lookupA_foldl_preserve st _ ns _ ?_]
        · unfold discoveryStep
          cases hp : discoveryPort st name
          · simp only [hp]
            exact lookupA_setA_self _ _ _
          · simp only [hp]
            rw [lookupA_setA_ne _ _ _ _ (fun h => host_ne_port _ _ h)]
            exact lookupA_setA_self _ _ _
        · intro n hn
          refine ⟨?_, host_ne_port _ _⟩
          intro h
          exact hnotin (append_right_inj h ▸ List.mem_map_of_mem envVarPrefix hn)
      · intro v hv
        rw [lookupA_foldl_preserve st _ ns _ ?_]
        · unfold discoveryStep
          rw [hv]
          exact lookupA_setA_self _ _ _
        · intro n hn
          refine ⟨fun h => host_ne_port _ _ h.symm, ?_⟩
          intro h
          exact hnotin (append_right_inj h ▸ List.mem_map_of_mem envVarPrefix hn)
    · rw [List.foldl_cons]
      exact ih _ name hmem' hndtail

/-- **C9 amended**: `get_service_discovery_env(names)` produces, for every
given service name (when the generated variable prefixes are pairwise
distinct, as dict keys would otherwise collide and the later service would
overwrite), an entry `<PREFIX>_HOST` valued at the service's truthy
allocated IP or `127.0.0.1`, and — when the service has mapped ports — an
entry `<PREFIX>_PORT` valued at the host port of its first mapped container
port, where `<PREFIX>` is the service name uppercased with only the
characters `-` and `.` mapped to `_` (other non-alphanumeric characters are
kept verbatim). -/
theorem get_service_discovery_env_spec (st : NMState) (names : List String)
    (hnd : (names.map envVarPrefix).Nodup) :
    ∀ name ∈ names,
      lookupA (get_service_discovery_env st names) (envVarPrefix name ++ "_HOST") =
        some (discoveryHost st name) ∧
      ∀ v, discoveryPort st name = some v →
        lookupA (get_service_discovery_env st names) (envVarPrefix name ++ "_PORT") =
          some v := by
  intro name hmem
  exact discovery_lookup_core st names [] name hmem hnd

/-- **C9 counterexample**: for the service name `"a b"` the generated
environment key keeps the space — `"A B_HOST"` — although the claim says
every non-alphanumeric character is mapped to `_` (which would give
`"A_B_HOST"`). -/
theorem discovery_env_counterexample :
    (' ').isAlphanum = false ∧
    envVarPrefix "a b" = "A B" ∧
    lookupA (get_service_discovery_env nmInit ["a b"]) "A_B_HOST" = Option.none ∧
    lookupA (get_service_discovery_env nmInit ["a b"]) "A B_HOST" = some "127.0.0.1" := by
  decide

/-- Witness for C9's amended theorem: a single service `db` with no
allocated IP resolves to the loopback host entry. -/
theorem get_service_discovery_env_spec_witness :
    ((["db"].map envVarPrefix).Nodup ∧ "db" ∈ ["db"]) ∧
    (lookupA (get_service_discovery_env nmInit ["db"]) (envVarPrefix "db" ++ "_HOST") =
        some (discoveryHost nmInit "db") ∧
      ∀ v, discoveryPort nmInit "db" = some v →
        lookupA (get_service_discovery_env nmInit ["db"]) (envVarPrefix "db" ++ "_PORT") =
          some v) :=
  ⟨⟨by decide, by decide⟩,
    get_service_discovery_env_spec nmInit ["db"] (by decide) "db" (by decide)⟩

/-! ### C5: IP allocation -/

theorem scanIPs_spec (alloc : List String) (base : Int) :
    ∀ (count : Nat) (off : Int) (ip : String),
      scanIPs alloc base count off = some ip →
      ip ∉ alloc ∧ ∃ k : Nat, k < count ∧ ip = formatIp (base + off + k) ∧
        ∀ j : Nat, j < k → formatIp (base + off + j) ∈ alloc := by
  intro count
  induction count with
  | zero => intro off ip h; cases h
  | succ n ih =>
    intro off ip h
    rw [scanIPs] at h
    split at h
    · rename_i hmem
      obtain ⟨hnot, k, hk, hip, hall⟩ := ih (off + 1) ip h
      refine ⟨hnot, k + 1, by omega, ?_, ?_⟩
      · rw [hip]; congr 1; push_cast; ring
      · intro j hj
        rcases j with _ | j'
        · simpa using hmem
        · have := hall j' (by omega)
          have harith : base + off + (j' + 1 : Nat) = base + (off + 1) + (j' : Nat) := by
            push_cast; ring
          rw [harith]
          exact this
    · rename_i hmem
      obtain rfl : formatIp (base + off) = ip := by
        simpa using h
      refine ⟨hmem, 0, by omega, by norm_num, by omega⟩

theorem lookupA_getD_setA_self {α : Type} (m : List (String × α)) (k : String) (v d : α) :
    (lookupA (setA m k v) k).getD d = v := by
  rw [lookupA_setA_self]
  rfl

/-- **C5 amended**: a successful subnet-scan allocation (the case where the
allocated set changed) returns an address not currently marked allocated in
that network — in particular never the pre-reserved gateway string — marks
it, and it is the first unmarked address scanning upward from subnet base
+ 2; when the network exists, allocation always returns some address;
a network without a subnet yields the loopback `127.0.0.1` unchanged (the
same fallback serves parse failures and exhaustion), and that fallback is
not freshness-checked, so it can equal the reserved gateway or repeat a
still-marked address. -/
theorem allocate_ip_spec :
    (∀ (st : NMState) (n : String) (ip : String) (st' : NMState),
        allocate_ip st n = (some ip, st') → st' ≠ st →
        ip ∉ allocatedOf st n ∧ allocatedOf st' n = allocatedOf st n ++ [ip] ∧
          ∀ g ∈ allocatedOf st n, ip ≠ g) ∧
    (∀ (st : NMState) (n : String) (cfg : NetConfig),
        lookupA st.networks n = some cfg → ∃ ip, (allocate_ip st n).1 = some ip) ∧
    (∀ (st : NMState) (n : String) (cfg : NetConfig),
        lookupA st.networks n = some cfg → cfg.subnet = Option.none →
        allocate_ip st n = (some "127.0.0.1", st)) ∧
    (∀ (st : NMState) (cfg : NetConfig) (g : String), cfg.gateway = some g →
        lookupA st.networks cfg.name = Option.none →
        g ∈ allocatedOf (create_network st cfg) cfg.name) ∧
    (∀ (alloc : List String) (base : Int) (count : Nat) (off : Int) (ip : String),
        scanIPs alloc base count off = some ip →
        ip ∉ alloc ∧ ∃ k : Nat, k < count ∧ ip = formatIp (base + off + k) ∧
          ∀ j : Nat, j < k → formatIp (base + off + j) ∈ alloc) := by
  refine ⟨?_, ?_, ?_, ?_, fun alloc base => scanIPs_spec alloc base⟩
  · intro st n ip st' h hne
    unfold allocate_ip at h
    split at h
    · exact absurd (congrArg Prod.fst h) (by simp)
    · split at h
      · injection h with h1 h2
        exact absurd h2.symm hne
      · split at h
        · split at h
          · split at h
            · injection h with h1 h2
              exact absurd h2.symm hne
            · dsimp only at h
              split at h
              · rename_i ip0 hscan
                injection h with h1 h2
                obtain rfl : ip0 = ip := by simpa using h1
                obtain ⟨hnot, -⟩ := scanIPs_spec _ _ _ _ _ hscan
                subst h2
                refine ⟨hnot, ?_, ?_⟩
                · show (lookupA (setA st.allocated_ips n _) n).getD [] = _
                  rw [lookupA_getD_setA_self]
                  rfl
                · intro g hg heq
                  exact hnot (heq ▸ hg)
              · injection h with h1 h2
                exact absurd h2.symm hne
          · injection h with h1 h2
            exact absurd h2.symm hne
        · injection h with h1 h2
          exact absurd h2.symm hne
  · intro st n cfg hl
    unfold allocate_ip
    rw [hl]
    dsimp only
    split
    · exact ⟨_, rfl⟩
    · split
      · split
        · split
          · exact ⟨_, rfl⟩
          · split
            · exact ⟨_, rfl⟩
            · exact ⟨_, rfl⟩
        · exact ⟨_, rfl⟩
      · exact ⟨_, rfl⟩
  · intro st n cfg hl hsub
    unfold allocate_ip
    rw [hl]
    dsimp only
    rw [hsub]
  · intro st cfg g hg hl
    unfold create_network allocatedOf
    rw [if_neg (by rw [hl]; simp)]
    dsimp only
    rw [hg, lookupA_getD_setA_self]
    exact List.mem_singleton.2 rfl

/-- **C5 counterexample**: a network created with gateway `127.0.0.1` and no
subnet reserves the gateway, yet `_allocate_ip` returns exactly that
reserved gateway address (the no-subnet fallback is the loopback). -/
theorem allocate_ip_counterexample :
    lookupA (create_network {} ⟨"n", Option.none, some "127.0.0.1"⟩).networks "n" =
      some ⟨"n", Option.none, some "127.0.0.1"⟩ ∧
    "127.0.0.1" ∈ allocatedOf (create_network {} ⟨"n", Option.none, some "127.0.0.1"⟩) "n" ∧
    (allocate_ip (create_network {} ⟨"n", Option.none, some "127.0.0.1"⟩) "n").1 =
      some "127.0.0.1" := by
  decide

/-- Witness for C5's amended theorem on a `/30` network with a reserved
gateway: the first allocation returns `10.0.0.2`, fresh and newly marked. -/
theorem allocate_ip_spec_witness :
    (allocate_ip (create_network {} ⟨"m", some "10.0.0.0/30", some "10.0.0.1"⟩) "m" =
        (some "10.0.0.2",
          (allocate_ip (create_network {} ⟨"m", some "10.0.0.0/30", some "10.0.0.1"⟩) "m").2) ∧
      (allocate_ip (create_network {} ⟨"m", some "10.0.0.0/30", some "10.0.0.1"⟩) "m").2 ≠
        create_network {} ⟨"m", some "10.0.0.0/30", some "10.0.0.1"⟩) ∧
    ("10.0.0.2" ∉ allocatedOf (create_network {} ⟨"m", some "10.0.0.0/30", some "10.0.0.1"⟩)
        "m" ∧
      allocatedOf (allocate_ip (create_network {} ⟨"m", some "10.0.0.0/30", some "10.0.0.1"⟩)
          "m").2 "m" =
        allocatedOf (create_network {} ⟨"m", some "10.0.0.0/30", some "10.0.0.1"⟩) "m" ++
          ["10.0.0.2"] ∧
      ∀ g ∈ allocatedOf (create_network {} ⟨"m", some "10.0.0.0/30", some "10.0.0.1"⟩) "m",
        ("10.0.0.2" : String) ≠ g) :=
  ⟨⟨by decide, by decide⟩,
    allocate_ip_spec.1 (create_network {} ⟨"m", some "10.0.0.0/30", some "10.0.0.1"⟩) "m"
      "10.0.0.2" _ (by decide) (by decide)⟩

/-! ### C1: dependency resolution -/

theorem visitFold_ok_spec (cfg : Config)
    (v : String → VisitSt → Except VisitErr VisitSt)
    (hv : ∀ d st st', d ∈ keysOf cfg → v d st = .ok st' →
      st'.processing = st.processing ∧
      (∃ t, st'.ordered = st.ordered ++ t) ∧
      (∀ x, x ∈ st.visited → x ∈ st'.visited) ∧
      d ∈ st'.visited ∧
      (∀ x, x ∈ st'.visited → x ∈ st.visited ∨ (x ∈ keysOf cfg ∧ x ∉ st.processing))) :
    ∀ (ds : List String) (st st' : VisitSt),
      visitFold cfg v ds st = .ok st' →
      st'.processing = st.processing ∧
      (∃ t, st'.ordered = st.ordered ++ t) ∧
      (∀ x, x ∈ st.visited → x ∈ st'.visited) ∧
      (∀ d ∈ ds, d ∈ keysOf cfg → d ∈ st'.visited) ∧
      (∀ x, x ∈ st'.visited → x ∈ st.visited ∨ (x ∈ keysOf cfg ∧ x ∉ st.processing)) := by
  intro ds
  induction ds with
  | nil =>
    intro st st' h
    rw [visitFold] at h
    injection h with h
    subst h
    exact ⟨rfl, ⟨[], by simp⟩, fun x hx => hx, by simp, fun x hx => Or.inl hx⟩
  | cons d ds ih =>
    intro st st' h
    rw [visitFold] at h
    by_cases hd : d ∈ keysOf cfg
    · rw [if_pos hd] at h
      cases hvd : v d st with
      | error e => rw [hvd] at h; cases h
      | ok st1 =>
        rw [hvd] at h
        obtain ⟨p1, ⟨t1, p2⟩, p3, p4, p5⟩ := hv d st st1 hd hvd
        obtain ⟨q1, ⟨t2, q2⟩, q3, q4, q5⟩ := ih st1 st' h
        refine ⟨q1.trans p1, ⟨t1 ++ t2, by rw [q2, p2, List.append_assoc]⟩,
          fun x hx => q3 x (p3 x hx), ?_, ?_⟩
        · intro e he _
          rcases List.mem_cons.1 he with rfl | he'
          · exact q3 e p4
          · exact q4 e he' (by assumption)
        · intro x hx
          rcases q5 x hx with hx1 | ⟨hk, hp⟩
          · rcases p5 x hx1 with hx2 | ⟨hk2, hp2⟩
            · exact Or.inl hx2
            · exact Or.inr ⟨hk2, hp2⟩
          · exact Or.inr ⟨hk, p1 ▸ hp⟩
    · rw [if_neg hd] at h
      obtain ⟨q1, q2, q3, q4, q5⟩ := ih st st' h
      refine ⟨q1, q2, q3, ?_, q5⟩
      intro e he hek
      rcases List.mem_cons.1 he with rfl | he'
      · exact absurd hek hd
      · exact q4 e he' hek

theorem visit_ok_spec (cfg : Config) :
    ∀ (fuel : Nat) (name : String) (st st' : VisitSt),
      name ∈ keysOf cfg → visit cfg fuel name st = .ok st' →
      st'.processing = st.processing ∧
      (∃ t, st'.ordered = st.ordered ++ t) ∧
      (∀ x, x ∈ st.visited → x ∈ st'.visited) ∧
      name ∈ st'.visited ∧
      (∀ x, x ∈ st'.visited → x ∈ st.visited ∨ (x ∈ keysOf cfg ∧ x ∉ st.processing)) := by
  intro fuel
  induction fuel with
  | zero => intro name st st' _ h; cases h
  | succ n ih =>
    intro name st st' hkey h
    rw [visit] at h
    by_cases hproc : name ∈ st.processing
    · rw [if_pos hproc] at h; cases h
    rw [if_neg hproc] at h
    by_cases hvis : name ∈ st.visited
    · rw [if_pos hvis] at h
      injection h with h
      subst h
      exact ⟨rfl, ⟨[], by simp⟩, fun x hx => hx, hvis, fun x hx => Or.inl hx⟩
    rw [if_neg hvis] at h
    cases hfold : visitFold cfg (visit cfg n) (depsOf cfg name)
        { st with processing := name :: st.processing } with
    | error e => rw [hfold] at h; cases h
    | ok st2 =>
      rw [hfold] at h
      injection h with h
      subst h
      obtain ⟨q1, ⟨t, q2⟩, q3, q4, q5⟩ := visitFold_ok_spec cfg (visit cfg n) ih _ _ _ hfold
      refine ⟨?_, ⟨t ++ [name], by rw [q2]; simp⟩,
        fun x hx => List.mem_cons_of_mem _ (q3 x hx), List.mem_cons_self _ _, ?_⟩
      · show st2.processing.erase name = st.processing
        rw [q1]
        exact List.erase_cons_head name st.processing
      · intro x hx
        rcases List.mem_cons.1 hx with rfl | hx'
        · exact Or.inr ⟨hkey, hproc⟩
        · rcases q5 x hx' with hx1 | ⟨hk, hp⟩
          · exact Or.inl hx1
          · exact Or.inr ⟨hk, fun hmem => hp (List.mem_cons_of_mem _ hmem)⟩

theorem beforeIn_append {l : List String} {b a : String} (t : List String)
    (h : beforeIn l b a) : beforeIn (l ++ t) b a := by
  obtain ⟨hb, ha, hlt⟩ := h
  exact ⟨List.mem_append_left _ hb, List.mem_append_left _ ha,
    by rw [List.indexOf_append_of_mem hb, List.indexOf_append_of_mem ha]; exact hlt⟩

theorem beforeIn_concat {l : List String} {b a : String} (hb : b ∈ l) (ha : a ∉ l) :
    beforeIn (l ++ [a]) b a := by
  refine ⟨List.mem_append_left _ hb, List.mem_append_right _ (by simp), ?_⟩
  rw [List.indexOf_append_of_mem hb, List.indexOf_append_of_not_mem ha]
  have := List.indexOf_lt_length.2 hb
  omega

theorem visit_inv (cfg : Config) :
    ∀ (fuel : Nat) (name : String) (st st' : VisitSt),
      name ∈ keysOf cfg → visit cfg fuel name st = .ok st' →
      OrderedInv cfg st → OrderedInv cfg st' := by
  intro fuel
  induction fuel with
  | zero => intro name st st' _ h; cases h
  | succ n ih =>
    intro name st st' hkey h hinv
    rw [visit] at h
    by_cases hproc : name ∈ st.processing
    · rw [if_pos hproc] at h; cases h
    rw [if_neg hproc] at h
    by_cases hvis : name ∈ st.visited
    · rw [if_pos hvis] at h
      injection h with h
      subst h
      exact hinv
    rw [if_neg hvis] at h
    cases hfold : visitFold cfg (visit cfg n) (depsOf cfg name)
        { st with processing := name :: st.processing } with
    | error e => rw [hfold] at h; cases h
    | ok st2 =>
      rw [hfold] at h
      injection h with h
      subst h
      -- the invariant is preserved through the fold over dependencies
      have hfoldinv : ∀ (ds : List String) (s s' : VisitSt),
          visitFold cfg (visit cfg n) ds s = .ok s' → OrderedInv cfg s → OrderedInv cfg s' := by
        intro ds
        induction ds with
        | nil =>
          intro s s' hf hi
          rw [visitFold] at hf
          injection hf with hf
          subst hf
          exact hi
        | cons d ds ihd =>
          intro s s' hf hi
          rw [visitFold] at hf
          by_cases hd : d ∈ keysOf cfg
          · rw [if_pos hd] at hf
            cases hvd : visit cfg n d s with
            | error e => rw [hvd] at hf; cases hf
            | ok s1 => rw [hvd] at hf; exact ihd s1 s' hf (ih d s s1 hd hvd hi)
          · rw [if_neg hd] at hf
            exact ihd s s' hf hi
      have hinv2 := hfoldinv _ _ _ hfold hinv
      obtain ⟨i1, i2, i3⟩ := hinv2
      obtain ⟨q1, ⟨t, q2⟩, q3, q4, q5⟩ := visitFold_ok_spec cfg (visit cfg n)
        (visit_ok_spec cfg n) _ _ _ hfold
      -- `name` was not visited during the fold: it sits on the processing stack
      have hnotvis2 : name ∉ st2.visited := by
        intro hmem
        rcases q5 name hmem with h1 | ⟨-, h2⟩
        · exact hvis h1
        · exact h2 (List.mem_cons_self _ _)
      have hnotord2 : name ∉ st2.ordered := by
        intro hmem
        exact hnotvis2 (i1 ▸ List.mem_reverse.2 hmem)
      have hndord : (st2.ordered ++ [name]).Nodup := by
        rw [List.nodup_append]
        exact ⟨i2, List.nodup_singleton _, by simpa using hnotord2⟩
      refine ⟨?_, hndord, ?_⟩
      · show name :: st2.visited = (st2.ordered ++ [name]).reverse
        rw [List.reverse_append, i1]
        rfl
      · intro a ha b hedge
        rcases List.mem_cons.1 ha with rfl | ha'
        · -- the freshly finished service: its deps were all visited by the fold
          have hb2 : b ∈ st2.visited := q4 b hedge.2.2 hedge.2.1
          refine ⟨List.mem_cons_of_mem _ hb2, ?_⟩
          exact beforeIn_concat (List.mem_reverse.1 (i1 ▸ hb2)) hnotord2
        · obtain ⟨hb2, hbefore⟩ := i3 a ha' b hedge
          exact ⟨List.mem_cons_of_mem _ hb2, beforeIn_append [name] hbefore⟩

theorem depPath_snoc {cfg : Config} {a b c : String} (hp : DepPath cfg a b)
    (he : DepEdge cfg b c) : DepPath cfg a c := by
  induction hp with
  | single h => exact DepPath.cons h (DepPath.single he)
  | cons h _ ih => exact DepPath.cons h (ih he)

theorem chainStack_path {cfg : Config} {f : String} {rest : List String}
    (h : ChainStack cfg (f :: rest)) : ∀ x ∈ f :: rest, x = f ∨ DepPath cfg x f := by
  generalize hl : f :: rest = l at h
  induction h generalizing f rest with
  | nil => cases hl
  | single a =>
    obtain ⟨rfl, rfl⟩ : a = f ∧ ([] : List String) = rest := by
      injection hl with h1 h2
      exact ⟨h1.symm, h2.symm⟩
    intro x hx
    exact Or.inl (by simpa using hx)
  | cons a b rest' hE hcs ih =>
    obtain ⟨rfl, hrest⟩ : a = f ∧ b :: rest' = rest := by
      injection hl with h1 h2
      exact ⟨h1.symm, h2.symm⟩
    subst hrest
    intro x hx
    rcases List.mem_cons.1 hx with rfl | hx'
    · exact Or.inl rfl
    · rcases ih rfl x hx' with rfl | hp
      · exact Or.inr (DepPath.single hE)
      · exact Or.inr (depPath_snoc hp hE)

theorem visitFold_cycle (cfg : Config) (v : String → VisitSt → Except VisitErr VisitSt)
    (name : String) (base : List String) (hname : name ∈ keysOf cfg)
    (hv : ∀ d st m, d ∈ keysOf cfg → ChainStack cfg st.processing →
      (st.processing = [] ∨ ∃ f rest, st.processing = f :: rest ∧ DepEdge cfg f d) →
      v d st = .error (.cycleAt m) → DepPath cfg m m)
    (hvOk : ∀ d st st', d ∈ keysOf cfg → v d st = .ok st' →
      st'.processing = st.processing) :
    ∀ (ds : List String) (st : VisitSt) (m : String),
      st.processing = name :: base → ChainStack cfg st.processing →
      (∀ d ∈ ds, d ∈ depsOf cfg name) →
      visitFold cfg v ds st = .error (.cycleAt m) → DepPath cfg m m := by
  intro ds
  induction ds with
  | nil => intro st m _ _ _ h; rw [visitFold] at h; cases h
  | cons d ds ih =>
    intro st m hst hchain hdeps h
    rw [visitFold] at h
    by_cases hd : d ∈ keysOf cfg
    · rw [if_pos hd] at h
      cases hvd : v d st with
      | error e =>
        rw [hvd] at h
        injection h with h
        subst h
        exact hv d st m hd hchain
          (Or.inr ⟨name, base, hst, hname, hd, hdeps d (List.mem_cons_self _ _)⟩) hvd
      | ok st1 =>
        rw [hvd] at h
        exact ih st1 m ((hvOk d st st1 hd hvd).trans hst)
          ((hvOk d st st1 hd hvd).symm ▸ hchain)
          (fun e he => hdeps e (List.mem_cons_of_mem _ he)) h
    · rw [if_neg hd] at h
      exact ih st m hst hchain (fun e he => hdeps e (List.mem_cons_of_mem _ he)) h

theorem visit_cycle (cfg : Config) :
    ∀ (fuel : Nat) (name : String) (st : VisitSt) (m : String),
      name ∈ keysOf cfg → ChainStack cfg st.processing →
      (st.processing = [] ∨ ∃ f rest, st.processing = f :: rest ∧ DepEdge cfg f name) →
      visit cfg fuel name st = .error (.cycleAt m) → DepPath cfg m m := by
  intro fuel
  induction fuel with
  | zero =>
    intro name st m _ _ _ h
    rw [visit] at h
    injection h with h
    cases h
  | succ n ih =>
    intro name st m hkey hchain hcall h
    rw [visit] at h
    by_cases hproc : name ∈ st.processing
    · rw [if_pos hproc] at h
      injection h with h
      obtain rfl : name = m := by injection h
      rcases hcall with hnil | ⟨f, rest, hst, hE⟩
      · rw [hnil] at hproc; cases hproc
      · rw [hst] at hproc hchain
        rcases chainStack_path hchain name hproc with rfl | hp
        · exact DepPath.single hE
        · exact depPath_snoc hp hE
    rw [if_neg hproc] at h
    by_cases hvis : name ∈ st.visited
    · rw [if_pos hvis] at h; cases h
    rw [if_neg hvis] at h
    cases hfold : visitFold cfg (visit cfg n) (depsOf cfg name)
        { st with processing := name :: st.processing } with
    | error e =>
      rw [hfold] at h
      injection h with h
      subst h
      have hchain1 : ChainStack cfg (name :: st.processing) := by
        rcases hcall with hnil | ⟨f, rest, hst, hE⟩
        · rw [hnil]; exact ChainStack.single name
        · rw [hst]
          rw [hst] at hchain
          exact ChainStack.cons name f rest hE hchain
      exact visitFold_cycle cfg (visit cfg n) name st.processing hkey ih
        (fun d s s' hd hok => (visit_ok_spec cfg n d s s' hd hok).1)
        (depsOf cfg name) _ m rfl hchain1 (fun e he => he) hfold
    | ok st2 => rw [hfold] at h; cases h

theorem filter_notmem_cons_length (name : String) (proc : List String) :
    ∀ (l : List String), l.Nodup → name ∈ l → name ∉ proc →
      (l.filter (fun k => decide (k ∉ name :: proc))).length + 1 =
        (l.filter (fun k => decide (k ∉ proc))).length := by
  intro l
  induction l with
  | nil => intro _ hmem _; simp at hmem
  | cons k rest ih =>
    intro hnd hmem hnproc
    have hk := List.nodup_cons.1 hnd
    by_cases hkn : name = k
    · subst hkn
      rw [List.filter_cons, List.filter_cons]
      have h2 : (decide (name ∉ name :: proc)) = false := by simp
      have h1 : (decide (name ∉ proc)) = true := by simpa using hnproc
      rw [h2, h1]
      have hcongr : rest.filter (fun k => decide (k ∉ name :: proc)) =
          rest.filter (fun k => decide (k ∉ proc)) := by
        apply List.filter_congr
        intro x hx
        have hxn : x ≠ name := fun he => hk.1 (he ▸ hx)
        simp [List.mem_cons, hxn]
      rw [hcongr]
      simp
    · have hmem' : name ∈ rest := by
        rcases List.mem_cons.1 hmem with h | h
        · exact absurd h hkn
        · exact h
      rw [List.filter_cons, List.filter_cons]
      have heq : (decide (k ∉ name :: proc)) = (decide (k ∉ proc)) := by
        have : k ≠ name := fun he => hkn he.symm
        simp [List.mem_cons, this]
      rw [heq]
      cases hkp : (decide (k ∉ proc)) with
      | false => simpa using ih hk.2 hmem' hnproc
      | true =>
        simp only [if_true, List.length_cons]
        have := ih hk.2 hmem' hnproc
        omega

theorem measST_push (cfg : Config) (st : VisitSt) (name : String)
    (hnd : (keysOf cfg).Nodup) (hkey : name ∈ keysOf cfg) (hproc : name ∉ st.processing) :
    measST cfg { st with processing := name :: st.processing } + 1 = measST cfg st :=
  filter_notmem_cons_length name st.processing (keysOf cfg) hnd hkey hproc

theorem measST_congr (cfg : Config) {st st' : VisitSt}
    (h : st'.processing = st.processing) : measST cfg st' = measST cfg st := by
  unfold measST
  rw [h]

theorem visitFold_nofuel (cfg : Config) (v : String → VisitSt → Except VisitErr VisitSt)
    (fuelv : Nat)
    (hvOk : ∀ d st st', d ∈ keysOf cfg → v d st = .ok st' → st'.processing = st.processing)
    (hvF : ∀ d st, d ∈ keysOf cfg → measST cfg st < fuelv →
      v d st ≠ .error .outOfFuel) :
    ∀ (ds : List String) (st : VisitSt), measST cfg st < fuelv →
      visitFold cfg v ds st ≠ .error .outOfFuel := by
  intro ds
  induction ds with
  | nil => intro st _ h; rw [visitFold] at h; cases h
  | cons d ds ih =>
    intro st hm h
    rw [visitFold] at h
    by_cases hd : d ∈ keysOf cfg
    · rw [if_pos hd] at h
      cases hvd : v d st with
      | error e =>
        rw [hvd] at h
        injection h with h
        subst h
        exact hvF d st hd hm hvd
      | ok st1 =>
        rw [hvd] at h
        exact ih st1 (by rw [measST_congr cfg (hvOk d st st1 hd hvd)]; exact hm) h
    · rw [if_neg hd] at h
      exact ih st hm h

theorem visit_nofuel (cfg : Config) (hnd : (keysOf cfg).Nodup) :
    ∀ (fuel : Nat) (name : String) (st : VisitSt), name ∈ keysOf cfg →
      measST cfg st < fuel → visit cfg fuel name st ≠ .error .outOfFuel := by
  intro fuel
  induction fuel with
  | zero => intro name st _ hm; omega
  | succ n ih =>
    intro name st hkey hm h
    rw [visit] at h
    by_cases hproc : name ∈ st.processing
    · rw [if_pos hproc] at h
      injection h with h
      cases h
    rw [if_neg hproc] at h
    by_cases hvis : name ∈ st.visited
    · rw [if_pos hvis] at h; cases h
    rw [if_neg hvis] at h
    cases hfold : visitFold cfg (visit cfg n) (depsOf cfg name)
        { st with processing := name :: st.processing } with
    | error e =>
      rw [hfold] at h
      injection h with h
      subst h
      have hm1 : measST cfg { st with processing := name :: st.processing } < n := by
        have := measST_push cfg st name hnd hkey hproc
        omega
      exact visitFold_nofuel cfg (visit cfg n) n
        (fun d s s' hd hok => (visit_ok_spec cfg n d s s' hd hok).1)
        (fun d s hd hms => ih d s hd hms) _ _ hm1 hfold
    | ok st2 => rw [hfold] at h; cases h

theorem runAll_ok_spec (cfg : Config) :
    ∀ (ns : List String) (st st' : VisitSt), (∀ n ∈ ns, n ∈ keysOf cfg) →
      runAll cfg ns st = .ok st' →
      (∀ n ∈ ns, n ∈ st'.visited) ∧
      (∀ x, x ∈ st.visited → x ∈ st'.visited) ∧
      (∀ x, x ∈ st'.visited → x ∈ st.visited ∨ (x ∈ keysOf cfg ∧ x ∉ st.processing)) ∧
      st'.processing = st.processing ∧
      (OrderedInv cfg st → OrderedInv cfg st') := by
  intro ns
  induction ns with
  | nil =>
    intro st st' _ h
    rw [runAll] at h
    injection h with h
    subst h
    exact ⟨by simp, fun x hx => hx, fun x hx => Or.inl hx, rfl, fun hi => hi⟩
  | cons n ns ih =>
    intro st st' hkeys h
    rw [runAll] at h
    cases hv : visit cfg (cfg.length + 1) n st with
    | error e => rw [hv] at h; cases h
    | ok st1 =>
      rw [hv] at h
      have hn := hkeys n (List.mem_cons_self _ _)
      obtain ⟨p1, -, p3, p4, p5⟩ := visit_ok_spec cfg (cfg.length + 1) n st st1 hn hv
      have hinv1 := visit_inv cfg (cfg.length + 1) n st st1 hn hv
      obtain ⟨q1, qm, q2, q3, q4⟩ := ih st1 st'
        (fun x hx => hkeys x (List.mem_cons_of_mem _ hx)) h
      refine ⟨?_, fun x hx => qm x (p3 x hx), ?_, q3.trans p1, fun hi => q4 (hinv1 hi)⟩
      · intro e he
        rcases List.mem_cons.1 he with rfl | he'
        · exact qm e p4
        · exact q1 e he'
      · intro x hx
        rcases q2 x hx with h1 | ⟨hk, hp⟩
        · rcases p5 x h1 with h2 | ⟨hk2, hp2⟩
          · exact Or.inl h2
          · exact Or.inr ⟨hk2, hp2⟩
        · exact Or.inr ⟨hk, p1 ▸ hp⟩

theorem runAll_cycle (cfg : Config) :
    ∀ (ns : List String) (st : VisitSt) (m : String), (∀ n ∈ ns, n ∈ keysOf cfg) →
      st.processing = [] → runAll cfg ns st = .error (.cycleAt m) → DepPath cfg m m := by
  intro ns
  induction ns with
  | nil => intro st m _ _ h; rw [runAll] at h; cases h
  | cons n ns ih =>
    intro st m hkeys hproc h
    rw [runAll] at h
    cases hv : visit cfg (cfg.length + 1) n st with
    | error e =>
      rw [hv] at h
      injection h with h
      subst h
      exact visit_cycle cfg (cfg.length + 1) n st m (hkeys n (List.mem_cons_self _ _))
        (hproc ▸ ChainStack.nil) (Or.inl hproc) hv
    | ok st1 =>
      rw [hv] at h
      have hp1 := (visit_ok_spec cfg (cfg.length + 1) n st st1
        (hkeys n (List.mem_cons_self _ _)) hv).1
      exact ih st1 m (fun x hx => hkeys x (List.mem_cons_of_mem _ hx)) (hp1.trans hproc) h

theorem measST_le (cfg : Config) (st : VisitSt) : measST cfg st ≤ cfg.length := by
  have h1 : measST cfg st ≤ (keysOf cfg).length := List.length_filter_le _ _
  have h2 : (keysOf cfg).length = cfg.length := List.length_map _ _
  omega

theorem runAll_nofuel (cfg : Config) (hnd : (keysOf cfg).Nodup) :
    ∀ (ns : List String) (st : VisitSt), (∀ n ∈ ns, n ∈ keysOf cfg) →
      runAll cfg ns st ≠ .error .outOfFuel := by
  intro ns
  induction ns with
  | nil => intro st _ h; rw [runAll] at h; cases h
  | cons n ns ih =>
    intro st hkeys h
    rw [runAll] at h
    cases hv : visit cfg (cfg.length + 1) n st with
    | error e =>
      rw [hv] at h
      injection h with h
      subst h
      exact visit_nofuel cfg hnd (cfg.length + 1) n st (hkeys n (List.mem_cons_self _ _))
        (by have := measST_le cfg st; omega) hv
    | ok st1 =>
      rw [hv] at h
      exact ih st1 (fun x hx => hkeys x (List.mem_cons_of_mem _ hx)) h

theorem resolve_order_ok_props (cfg : Config) (hnd : (keysOf cfg).Nodup) :
    ∀ l, resolve_order cfg = .ok l →
      l.Perm (keysOf cfg) ∧ ∀ a b, DepPath cfg a b → beforeIn l b a := by
  intro l h
  unfold resolve_order at h
  cases hrun : runAll cfg (keysOf cfg) ⟨[], [], []⟩ with
  | error e => rw [hrun] at h; cases h
  | ok st' =>
    rw [hrun] at h
    injection h with h
    subst h
    obtain ⟨hall, -, hnew, -, hinvf⟩ :=
      runAll_ok_spec cfg (keysOf cfg) ⟨[], [], []⟩ st' (fun n hn => hn) hrun
    obtain ⟨hvo, hndord, hclosed⟩ := hinvf ⟨rfl, List.nodup_nil, by simp⟩
    have hmemiff : ∀ x, x ∈ st'.ordered ↔ x ∈ st'.visited := by
      intro x
      rw [hvo, List.mem_reverse]
    have hsub1 : st'.ordered ⊆ keysOf cfg := by
      intro x hx
      rcases hnew x ((hmemiff x).1 hx) with h1 | ⟨hk, -⟩
      · simp at h1
      · exact hk
    have hsub2 : keysOf cfg ⊆ st'.ordered := by
      intro x hx
      exact (hmemiff x).2 (hall x hx)
    have hedge : ∀ a b, DepEdge cfg a b → beforeIn st'.ordered b a := by
      intro a b he
      have ha : a ∈ st'.visited := hall a he.1
      exact (hclosed a ha b he).2
    refine ⟨(List.subperm_of_subset hndord hsub1).antisymm
      (List.subperm_of_subset hnd hsub2), ?_⟩
    intro a b hp
    induction hp with
    | single h => exact hedge _ _ h
    | cons h _ ihp =>
      obtain ⟨hb, -, hlt1⟩ := ihp
      obtain ⟨-, ha, hlt2⟩ := hedge _ _ h
      exact ⟨hb, ha, hlt1.trans hlt2⟩

theorem resolve_order_err_props (cfg : Config) (hnd : (keysOf cfg).Nodup) :
    ∀ e, resolve_order cfg = .error e → ∃ m, e = .cycleAt m ∧ DepPath cfg m m := by
  intro e h
  unfold resolve_order at h
  cases hrun : runAll cfg (keysOf cfg) ⟨[], [], []⟩ with
  | ok st' => rw [hrun] at h; cases h
  | error e' =>
    rw [hrun] at h
    injection h with h
    subst h
    cases e' with
    | outOfFuel => exact absurd hrun (runAll_nofuel cfg hnd (keysOf cfg) _ (fun n hn => hn))
    | cycleAt m =>
      exact ⟨m, rfl, runAll_cycle cfg (keysOf cfg) _ m (fun n hn => hn) rfl hrun⟩

theorem keysOf_restrict (cfg : Config) : keysOf (restrictConfig cfg) = keysOf cfg := by
  unfold keysOf restrictConfig
  rw [List.map_map]
  rfl

theorem lookupA_mapVal {α β : Type} (f : α → β) :
    ∀ (m : List (String × α)) (n : String),
      lookupA (m.map (fun p => (p.1, f p.2))) n = (lookupA m n).map f := by
  intro m
  induction m with
  | nil => intro n; rfl
  | cons p rest ih =>
    intro n
    rcases p with ⟨k, v⟩
    show lookupA ((k, f v) :: rest.map (fun p => (p.1, f p.2))) n = _
    rw [lookupA_cons, lookupA_cons]
    split
    · rfl
    · exact ih n

theorem lookupA_restrict (cfg : Config) (n : String) :
    lookupA (restrictConfig cfg) n =
      (lookupA cfg n).map (fun ds => ds.filter (fun d => decide (d ∈ keysOf cfg))) :=
  lookupA_mapVal _ cfg n

theorem depsOf_restrict (cfg : Config) (n : String) :
    depsOf (restrictConfig cfg) n =
      (depsOf cfg n).filter (fun d => decide (d ∈ keysOf cfg)) := by
  unfold depsOf
  rw [lookupA_restrict]
  cases lookupA cfg n with
  | none => rfl
  | some ds => rfl

theorem visit_restrict (cfg : Config) :
    ∀ (fuel : Nat) (name : String) (st : VisitSt),
      visit (restrictConfig cfg) fuel name st = visit cfg fuel name st := by
  intro fuel
  induction fuel with
  | zero => intro name st; rfl
  | succ n ih =>
    intro name st
    have hfold : ∀ (ds : List String) (s : VisitSt),
        visitFold (restrictConfig cfg) (visit (restrictConfig cfg) n)
            (ds.filter (fun d => decide (d ∈ keysOf cfg))) s =
          visitFold cfg (visit cfg n) ds s := by
      intro ds
      induction ds with
      | nil => intro s; rfl
      | cons d ds ihds =>
        intro s
        by_cases hd : d ∈ keysOf cfg
        · rw [List.filter_cons, if_pos (by simpa using hd)]
          rw [visitFold, visitFold, keysOf_restrict, if_pos hd, if_pos hd, ih]
          cases visit cfg n d s with
          | error e => rfl
          | ok s1 => exact ihds s1
        · rw [List.filter_cons, if_neg (by simpa using hd)]
          conv_rhs => rw [visitFold]
          rw [if_neg hd]
          exact ihds s
    rw [visit, visit, depsOf_restrict, hfold]

theorem runAll_restrict (cfg : Config) :
    ∀ (ns : List String) (st : VisitSt),
      runAll (restrictConfig cfg) ns st = runAll cfg ns st := by
  intro ns
  induction ns with
  | nil => intro st; rfl
  | cons n ns ih =>
    intro st
    have hlen : (restrictConfig cfg).length = cfg.length := List.length_map _ _
    rw [runAll, runAll, hlen, visit_restrict]
    cases visit cfg (cfg.length + 1) n st with
    | error e => rfl
    | ok st1 => exact ih st1

theorem resolve_order_restrict (cfg : Config) :
    resolve_order (restrictConfig cfg) = resolve_order cfg := by
  unfold resolve_order
  rw [keysOf_restrict, runAll_restrict]

/-- **C1**: for every config (with unique service names, the dict
invariant) without within-config dependency cycles, `resolve_order`
returns a permutation of the service names in which every service appears
after everything it transitively depends on; for every config with a
cycle it raises the circular-dependency error naming a service that lies
on a cycle; and `depends_on` entries naming services absent from the
config never affect the result (resolving the restricted config is
identical). -/
theorem resolve_order_correct (cfg : Config) (hnd : (keysOf cfg).Nodup) :
    ((∀ a, ¬DepPath cfg a a) →
      ∃ l, resolve_order cfg = .ok l ∧ l.Perm (keysOf cfg) ∧
        ∀ a b, DepPath cfg a b → beforeIn l b a) ∧
    ((∃ a, DepPath cfg a a) →
      ∃ m, resolve_order cfg = .error (.cycleAt m) ∧ DepPath cfg m m) ∧
    resolve_order (restrictConfig cfg) = resolve_order cfg := by
  refine ⟨?_, ?_, resolve_order_restrict cfg⟩
  · intro hacyc
    cases hres : resolve_order cfg with
    | ok l =>
      obtain ⟨hperm, htopo⟩ := resolve_order_ok_props cfg hnd l hres
      exact ⟨l, rfl, hperm, htopo⟩
    | error e =>
      obtain ⟨m, -, hpath⟩ := resolve_order_err_props cfg hnd e hres
      exact absurd hpath (hacyc m)
  · rintro ⟨a, hpa⟩
    cases hres : resolve_order cfg with
    | ok l =>
      obtain ⟨-, htopo⟩ := resolve_order_ok_props cfg hnd l hres
      obtain ⟨-, -, hlt⟩ := htopo a a hpa
      omega
    | error e =>
      obtain ⟨m, rfl, hpath⟩ := resolve_order_err_props cfg hnd e hres
      exact ⟨m, rfl, hpath⟩

/-- Witness for C1 at the two-service config `web → db` with a dangling
`ghost` dependency. -/
theorem resolve_order_correct_witness :
    (keysOf [("web", ["db", "ghost"]), ("db", [])]).Nodup ∧
    (((∀ a, ¬DepPath [("web", ["db", "ghost"]), ("db", [])] a a) →
      ∃ l, resolve_order [("web", ["db", "ghost"]), ("db", [])] = .ok l ∧
        l.Perm (keysOf [("web", ["db", "ghost"]), ("db", [])]) ∧
        ∀ a b, DepPath [("web", ["db", "ghost"]), ("db", [])] a b → beforeIn l b a) ∧
    ((∃ a, DepPath [("web", ["db", "ghost"]), ("db", [])] a a) →
      ∃ m, resolve_order [("web", ["db", "ghost"]), ("db", [])] = .error (.cycleAt m) ∧
        DepPath [("web", ["db", "ghost"]), ("db", [])] m m) ∧
    resolve_order (restrictConfig [("web", ["db", "ghost"]), ("db", [])]) =
      resolve_order [("web", ["db", "ghost"]), ("db", [])]) :=
  ⟨by decide, resolve_order_correct [("web", ["db", "ghost"]), ("db", [])] (by decide)⟩

end D2P
